import Mathlib

/-!
Verification development for the AutoRFP generation-with-caching pipeline.

The Python sources are embedded shallowly:
- text is `List Char`
- JSON-serializable trees (`dict` / `list` / `str` / numbers) are `JVal`
- `json.dumps(d, indent=4)` is `jdump`, `json.loads` is `jloads` (a fueled
  recursive-descent parser over the same grammar)
- floats are modelled by exact decimals `m / 10 ^ (e + 1)` (a float rendered by
  Python always shows at least one fraction digit, e.g. `40.0`)
- the pydantic model tree `Modules → ModuleModel → TaskModel → TaskCategoryModel`
  is embedded as Lean structures, with `model_dump` / validation as
  `toJVal` / `fromJVal` functions
- the MongoDB-backed store and the cache layer are explicit state passing over
  association-list documents; ISO-8601 timestamps are abstract integer seconds.
-/

namespace AutoRFP

/-- Text is modelled as a list of characters. -/
abbrev Str := List Char

/-- JSON-serializable value trees (the payloads handled by `BaseModel.to_dict`,
`json.dumps` / `json.loads` and the YAML dumper).  `num m e` models the float
with exact value `m / 10 ^ (e + 1)`, printed with `e + 1` fraction digits. -/
inductive JVal : Type where
  | str (s : Str)
  | int (m : Int)
  | num (m : Int) (e : Nat)
  | arr (xs : List JVal)
  | obj (fs : List (Str × JVal))

/-- Base-10 digits, least significant first, by fueled structural recursion
(so that concrete documents evaluate). -/
def digitsF : Nat → Nat → List Nat
  | 0, _ => []
  | _ + 1, 0 => []
  | fuel + 1, n + 1 => (n + 1) % 10 :: digitsF fuel ((n + 1) / 10)

/-- Base-10 digits of `n`, least significant first (empty for `0`). -/
def digits10 (n : Nat) : List Nat :=
  digitsF n n

theorem digitsF_eq (fuel : Nat) : ∀ n : Nat, n ≤ fuel → digitsF fuel n = Nat.digits 10 n := by
  induction fuel with
  | zero =>
    intro n h
    have hn : n = 0 := by omega
    subst hn
    rw [Nat.digits_zero]
    decide
  | succ fuel ih =>
    intro n h
    cases n with
    | zero =>
      rw [Nat.digits_zero]
      rfl
    | succ m =>
      rw [Nat.digits_def' (by norm_num : (1 : ℕ) < 10) (Nat.succ_pos m)]
      show (m + 1) % 10 :: digitsF fuel ((m + 1) / 10)
        = (m + 1) % 10 :: Nat.digits 10 ((m + 1) / 10)
      have hlt : (m + 1) / 10 < m + 1 := Nat.div_lt_self (Nat.succ_pos m) (by norm_num)
      exact congrArg _ (ih _ (by omega))

theorem digits10_eq (n : Nat) : digits10 n = Nat.digits 10 n :=
  digitsF_eq n n (le_refl n)

theorem digits10_lt (n : Nat) : ∀ d ∈ digits10 n, d < 10 := by
  rw [digits10_eq]
  exact fun d hd => Nat.digits_lt_base (by norm_num) hd

theorem digits10_ne_nil {n : Nat} (h : n ≠ 0) : digits10 n ≠ [] := by
  rw [digits10_eq]
  exact Nat.digits_ne_nil_iff_ne_zero.mpr h

theorem ofDigits_digits10 (n : Nat) : Nat.ofDigits 10 (digits10 n) = n := by
  rw [digits10_eq, Nat.ofDigits_digits]

/-- Digits of `n`, most significant first (empty for `0`). -/
def natCharsBE (n : Nat) : Str :=
  ((digits10 n).map Nat.digitChar).reverse

/-- Decimal digits of `n` as printed (handles `0`). -/
def natChars (n : Nat) : Str :=
  if n = 0 then ['0'] else natCharsBE n

/-- Integer literal as printed by `json.dumps`. -/
def intChars (m : Int) : Str :=
  (if m < 0 then ['-'] else []) ++ natChars m.natAbs

/-- Digits of the decimal with value `n / 10 ^ (e + 1)`: integer digits, a
point, and exactly `e + 1` fraction digits. -/
def numBody (n : Nat) (e : Nat) : Str :=
  let f := e + 1
  let ds := digits10 n
  let padded := ds ++ List.replicate (f + 1 - ds.length) 0
  ((padded.drop f).map Nat.digitChar).reverse
    ++ '.' :: ((padded.take f).map Nat.digitChar).reverse

/-- Float literal for the value `m / 10 ^ (e + 1)`: sign, integer digits, a
point, and exactly `e + 1` fraction digits, as Python renders floats. -/
def numChars (m : Int) (e : Nat) : Str :=
  (if m < 0 then ['-'] else []) ++ numBody m.natAbs e

/-- JSON string escaping as performed by `json.dumps` (quote, backslash and
control characters; other characters pass through unchanged). -/
def escChar (c : Char) : Str :=
  if c = '"' then ['\\', '"']
  else if c = '\\' then ['\\', '\\']
  else if c = '\n' then ['\\', 'n']
  else if c = '\t' then ['\\', 't']
  else if c = '\r' then ['\\', 'r']
  else if c = '\x08' then ['\\', 'b']
  else if c = '\x0c' then ['\\', 'f']
  else if c.toNat < 32 then
    ['\\', 'u', '0', '0', Nat.digitChar (c.toNat / 16), Nat.digitChar (c.toNat % 16)]
  else [c]

/-- Escape every character of a string body. -/
def escString (s : Str) : Str :=
  s.foldr (fun c acc => escChar c ++ acc) []

/-- A JSON string literal: quotes around the escaped body. -/
def dumpStrLit (s : Str) : Str :=
  '"' :: escString s ++ ['"']

/-- Indentation of `json.dumps(..., indent=4)`: four spaces per level. -/
def jpad (lvl : Nat) : Str :=
  List.replicate (4 * lvl) ' '

mutual

/-- `json.dumps(v, indent=4)` at nesting level `lvl`. -/
def jdump : JVal → Nat → Str
  | .str s, _ => dumpStrLit s
  | .int m, _ => intChars m
  | .num m e, _ => numChars m e
  | .arr [], _ => ['[', ']']
  | .arr (x :: xs), lvl =>
      '[' :: '\n' :: (jdumpItems (x :: xs) (lvl + 1) ++ '\n' :: jpad lvl ++ [']'])
  | .obj [], _ => ['{', '}']
  | .obj (f :: fs), lvl =>
      '{' :: '\n' :: (jdumpFields (f :: fs) (lvl + 1) ++ '\n' :: jpad lvl ++ ['}'])

/-- Comma-and-newline separated array items, each on its own indented line. -/
def jdumpItems : List JVal → Nat → Str
  | [], _ => []
  | [x], lvl => jpad lvl ++ jdump x lvl
  | x :: y :: xs, lvl =>
      jpad lvl ++ jdump x lvl ++ ',' :: '\n' :: jdumpItems (y :: xs) lvl

/-- Comma-and-newline separated object entries `"key": value`. -/
def jdumpFields : List (Str × JVal) → Nat → Str
  | [], _ => []
  | [(k, v)], lvl => jpad lvl ++ dumpStrLit k ++ ':' :: ' ' :: jdump v lvl
  | (k, v) :: g :: fs, lvl =>
      jpad lvl ++ dumpStrLit k ++ ':' :: ' ' :: jdump v lvl
        ++ ',' :: '\n' :: jdumpFields (g :: fs) lvl

end

/-- The whitespace characters skipped by the JSON decoder. -/
def isJsonWs (c : Char) : Bool :=
  c = ' ' || c = '\n' || c = '\t' || c = '\r'

/-- Skip leading JSON whitespace. -/
def skipWs : Str → Str
  | [] => []
  | c :: cs => if isJsonWs c then skipWs cs else c :: cs

/-- Value of a hexadecimal digit. -/
def parseHex (c : Char) : Option Nat :=
  if '0' ≤ c ∧ c ≤ '9' then some (c.toNat - 48)
  else if 'a' ≤ c ∧ c ≤ 'f' then some (c.toNat - 87)
  else if 'A' ≤ c ∧ c ≤ 'F' then some (c.toNat - 55)
  else none

/-- Single-character escape codes accepted after a backslash. -/
def escCode (e : Char) : Option Char :=
  if e = '"' then some '"'
  else if e = '\\' then some '\\'
  else if e = '/' then some '/'
  else if e = 'n' then some '\n'
  else if e = 't' then some '\t'
  else if e = 'r' then some '\r'
  else if e = 'b' then some '\x08'
  else if e = 'f' then some '\x0c'
  else none

/-- Scan a JSON string body up to the closing quote; raw control characters are
rejected, as in `json.loads`.  Returns the decoded body and the remainder. -/
def parseStrTail (fuel : Nat) (cs : Str) : Option (Str × Str) :=
  match fuel with
  | 0 => none
  | fuel + 1 =>
    match cs with
    | [] => none
    | c :: cs =>
      if c = '"' then some ([], cs)
      else if c = '\\' then
        match cs with
        | [] => none
        | e :: cs2 =>
          if e = 'u' then
            match cs2 with
            | h1 :: h2 :: h3 :: h4 :: cs3 =>
              match parseHex h1, parseHex h2, parseHex h3, parseHex h4 with
              | some a, some b, some c4, some d =>
                (fun p => (Char.ofNat (((a * 16 + b) * 16 + c4) * 16 + d) :: p.1, p.2))
                  <$> parseStrTail fuel cs3
              | _, _, _, _ => none
            | _ => none
          else
            match escCode e with
            | some c2 => (fun p => (c2 :: p.1, p.2)) <$> parseStrTail fuel cs2
            | none => none
      else if c.toNat < 32 then none
      else (fun p => (c :: p.1, p.2)) <$> parseStrTail fuel cs

/-- Numeric value of a string of decimal digits, most significant first. -/
def natOfBE (ds : List Nat) : Nat :=
  ds.foldl (fun a d => 10 * a + d) 0

/-- Value of one decimal digit character. -/
def digitVal (c : Char) : Nat :=
  c.toNat - 48

/-- Parse a number literal after an optional leading minus sign: digits, and an
optional point followed by fraction digits. -/
def parseNumTail (neg : Bool) (cs : Str) : Option (JVal × Str) :=
  match cs.takeWhile Char.isDigit, cs.dropWhile Char.isDigit with
  | [], _ => none
  | d :: ds, rest1 =>
    match rest1 with
    | '.' :: cs2 =>
      match cs2.takeWhile Char.isDigit, cs2.dropWhile Char.isDigit with
      | [], _ => none
      | d2 :: ds2, rest2 =>
        let n := natOfBE (((d :: ds) ++ d2 :: ds2).map digitVal)
        some (.num (if neg then -(n : Int) else (n : Int)) ((d2 :: ds2).length - 1), rest2)
    | _ => some (.int (if neg then -(natOfBE ((d :: ds).map digitVal) : Int)
                       else (natOfBE ((d :: ds).map digitVal) : Int)), rest1)

mutual

/-- Fueled recursive-descent JSON value parser (models `json.loads`).  Returns
the value and the unconsumed remainder. -/
def jparseVal (fuel : Nat) (cs : Str) : Option (JVal × Str) :=
  match fuel with
  | 0 => none
  | fuel + 1 =>
    match skipWs cs with
    | [] => none
    | c :: cs =>
      if c = '"' then
        (fun p => (JVal.str p.1, p.2)) <$> parseStrTail (cs.length + 1) cs
      else if c = '{' then
        match skipWs cs with
        | '}' :: rest => some (.obj [], rest)
        | _ => (fun p => (JVal.obj p.1, p.2)) <$> jparseFields fuel cs
      else if c = '[' then
        match skipWs cs with
        | ']' :: rest => some (.arr [], rest)
        | _ => (fun p => (JVal.arr p.1, p.2)) <$> jparseItems fuel cs
      else if c = '-' then parseNumTail true cs
      else if c.isDigit then parseNumTail false (c :: cs)
      else none

/-- Parse the items of a non-empty array body up to the closing bracket. -/
def jparseItems (fuel : Nat) (cs : Str) : Option (List JVal × Str) :=
  match fuel with
  | 0 => none
  | fuel + 1 =>
    match jparseVal fuel cs with
    | none => none
    | some (v, rest) =>
      match skipWs rest with
      | ',' :: rest2 => (fun p => (v :: p.1, p.2)) <$> jparseItems fuel rest2
      | ']' :: rest2 => some ([v], rest2)
      | _ => none

/-- Parse the entries of a non-empty object body up to the closing brace. -/
def jparseFields (fuel : Nat) (cs : Str) : Option (List (Str × JVal) × Str) :=
  match fuel with
  | 0 => none
  | fuel + 1 =>
    match skipWs cs with
    | '"' :: cs2 =>
      match parseStrTail (cs2.length + 1) cs2 with
      | none => none
      | some (k, rest) =>
        match skipWs rest with
        | ':' :: rest2 =>
          match jparseVal fuel rest2 with
          | none => none
          | some (v, rest3) =>
            match skipWs rest3 with
            | ',' :: rest4 => (fun p => ((k, v) :: p.1, p.2)) <$> jparseFields fuel rest4
            | '}' :: rest4 => some ([(k, v)], rest4)
            | _ => none
        | _ => none
    | _ => none

end

/-- `json.loads`: parse a whole document, requiring only whitespace after the
value. -/
def jloads (cs : Str) : Option JVal :=
  match jparseVal (cs.length + 1) cs with
  | some (v, rest) => if skipWs rest = [] then some v else none
  | none => none

mutual

/-- Fuel measure of a value: enough parser steps to consume its printout. -/
def jsize : JVal → Nat
  | .str _ => 1
  | .int _ => 1
  | .num _ _ => 1
  | .arr xs => 1 + jsizeItems xs
  | .obj fs => 1 + jsizeFields fs

/-- Fuel measure of array items. -/
def jsizeItems : List JVal → Nat
  | [] => 0
  | x :: xs => 1 + jsize x + jsizeItems xs

/-- Fuel measure of object entries. -/
def jsizeFields : List (Str × JVal) → Nat
  | [] => 0
  | f :: fs => 1 + jsize f.2 + jsizeFields fs

end

/-! ### Infrastructure lemmas for the printer–parser round trip -/

/-- Lists made only of JSON whitespace characters. -/
def wsOnly (pre : Str) : Prop :=
  ∀ c ∈ pre, isJsonWs c = true

theorem wsOnly_nil : wsOnly [] := by
  intro c hc
  cases hc

theorem wsOnly_jpad (lvl : Nat) : wsOnly (jpad lvl) := by
  intro c hc
  have := List.eq_of_mem_replicate hc
  subst this
  rfl

theorem wsOnly_cons {c : Char} {pre : Str} (hc : isJsonWs c = true) (h : wsOnly pre) :
    wsOnly (c :: pre) := by
  intro d hd
  rcases List.mem_cons.mp hd with rfl | hd2
  · exact hc
  · exact h _ hd2

theorem skipWs_append {pre : Str} (h : wsOnly pre) (cs : Str) :
    skipWs (pre ++ cs) = skipWs cs := by
  induction pre with
  | nil => rfl
  | cons c t ih =>
    have hc := h c (by simp)
    simp only [List.cons_append, skipWs, hc, if_true]
    exact ih (fun d hd => h d (by simp [hd]))

theorem skipWs_cons_of_not {c : Char} (h : isJsonWs c = false) (cs : Str) :
    skipWs (c :: cs) = c :: cs := by
  simp [skipWs, h]

theorem isDigit_not_ws {c : Char} (h : c.isDigit = true) : isJsonWs c = false := by
  have h1 : c ≠ ' ' := by rintro rfl; simp at h
  have h2 : c ≠ '\n' := by rintro rfl; simp at h
  have h3 : c ≠ '\t' := by rintro rfl; simp at h
  have h4 : c ≠ '\r' := by rintro rfl; simp at h
  simp [isJsonWs, h1, h2, h3, h4]

theorem digitChar_isDigit {d : Nat} (h : d < 10) : (Nat.digitChar d).isDigit = true := by
  interval_cases d <;> decide

theorem digitVal_digitChar {d : Nat} (h : d < 10) : digitVal (Nat.digitChar d) = d := by
  interval_cases d <;> decide

theorem parseHex_digitChar {d : Nat} (h : d < 16) : parseHex (Nat.digitChar d) = some d := by
  interval_cases d <;> decide

/-- `takeWhile` over a block of characters all satisfying `p`, followed by a
remainder whose head does not, keeps exactly the block. -/
theorem takeWhile_block {p : Char → Bool} {ds rest : Str}
    (h1 : ∀ c ∈ ds, p c = true)
    (h2 : rest = [] ∨ ∃ c t, rest = c :: t ∧ p c = false) :
    (ds ++ rest).takeWhile p = ds := by
  induction ds with
  | nil =>
    rcases h2 with rfl | ⟨c, t, rfl, hc⟩
    · rfl
    · simp [List.takeWhile_cons, hc]
  | cons d ds ih =>
    have hd := h1 d (by simp)
    simp only [List.cons_append, List.takeWhile_cons, hd, if_true]
    rw [ih (fun c hc => h1 c (by simp [hc]))]

/-- Companion of `takeWhile_block` for `dropWhile`. -/
theorem dropWhile_block {p : Char → Bool} {ds rest : Str}
    (h1 : ∀ c ∈ ds, p c = true)
    (h2 : rest = [] ∨ ∃ c t, rest = c :: t ∧ p c = false) :
    (ds ++ rest).dropWhile p = rest := by
  induction ds with
  | nil =>
    rcases h2 with rfl | ⟨c, t, rfl, hc⟩
    · rfl
    · simp [List.dropWhile_cons, hc]
  | cons d ds ih =>
    have hd := h1 d (by simp)
    simp only [List.cons_append, List.dropWhile_cons, hd, if_true]
    exact ih (fun c hc => h1 c (by simp [hc]))

theorem natOfBE_reverse (ds : List Nat) : natOfBE ds.reverse = Nat.ofDigits 10 ds := by
  induction ds with
  | nil => rfl
  | cons d t ih =>
    simp only [List.reverse_cons, natOfBE, List.foldl_append, Nat.ofDigits_cons] at *
    rw [ih]
    simp [List.foldl_cons]
    ring

theorem ofDigits_replicate_zero (n : Nat) : Nat.ofDigits 10 (List.replicate n 0) = 0 := by
  induction n with
  | zero => rfl
  | succ n ih => simp [List.replicate_succ, Nat.ofDigits_cons, ih]

theorem escString_nil : escString [] = [] := rfl

theorem escString_cons (c : Char) (t : Str) : escString (c :: t) = escChar c ++ escString t := rfl

theorem escChar_length_pos (c : Char) : 1 ≤ (escChar c).length := by
  unfold escChar
  split <;> try simp
  split <;> try simp
  split <;> try simp
  split <;> try simp
  split <;> try simp
  split <;> try simp
  split <;> try simp
  split <;> simp

theorem escString_length (s : Str) : s.length ≤ (escString s).length := by
  induction s with
  | nil => simp [escString_nil]
  | cons c t ih =>
    rw [escString_cons]
    simp only [List.length_cons, List.length_append]
    have := escChar_length_pos c
    omega

/-- Scanning the escaped body of `s` followed by a closing quote recovers `s`
exactly and leaves the remainder untouched. -/
theorem parseStrTail_esc (s : Str) : ∀ (fuel : Nat) (rest : Str), s.length < fuel →
    parseStrTail fuel (escString s ++ '"' :: rest) = some (s, rest) := by
  induction s with
  | nil =>
    intro fuel rest hf
    obtain ⟨k, rfl⟩ : ∃ k, fuel = k + 1 := ⟨fuel - 1, by omega⟩
    simp [escString_nil, parseStrTail]
  | cons c t ih =>
    intro fuel rest hf
    obtain ⟨k, rfl⟩ : ∃ k, fuel = k + 1 := ⟨fuel - 1, by omega⟩
    have ht : t.length < k := by simp only [List.length_cons] at hf; omega
    have hrec := ih k rest ht
    rw [escString_cons, List.append_assoc]
    by_cases h1 : c = '"'
    · subst h1
      simp [escChar, parseStrTail, escCode, hrec]
    by_cases h2 : c = '\\'
    · subst h2
      simp [escChar, parseStrTail, escCode, hrec]
    by_cases h3 : c = '\n'
    · subst h3
      simp [escChar, parseStrTail, escCode, hrec]
    by_cases h4 : c = '\t'
    · subst h4
      simp [escChar, parseStrTail, escCode, hrec]
    by_cases h5 : c = '\r'
    · subst h5
      simp [escChar, parseStrTail, escCode, hrec]
    by_cases h6 : c = '\x08'
    · subst h6
      simp [escChar, parseStrTail, escCode, hrec]
    by_cases h7 : c = '\x0c'
    · subst h7
      simp [escChar, parseStrTail, escCode, hrec]
    by_cases h8 : c.toNat < 32
    · have hdiv : c.toNat / 16 < 16 := by omega
      have hmod : c.toNat % 16 < 16 := Nat.mod_lt _ (by norm_num)
      have hChar : (((0 * 16 + 0) * 16 + c.toNat / 16) * 16 + c.toNat % 16) = c.toNat := by
        omega
      simp only [escChar, if_neg h1, if_neg h2, if_neg h3, if_neg h4, if_neg h5, if_neg h6,
        if_neg h7, if_pos h8, List.cons_append, List.nil_append]
      simp only [parseStrTail]
      simp only [if_true, parseHex_digitChar hdiv, parseHex_digitChar hmod,
        (by decide : parseHex '0' = some 0), hrec]
      simp only [Option.map_some]
      have hsum : c.toNat / 16 * 16 + c.toNat % 16 = c.toNat := by omega
      simp [hsum, Char.ofNat_toNat]
    · have h32 : (c.toNat < 32) = False := by simp [h8]
      simp only [escChar, if_neg h1, if_neg h2, if_neg h3, if_neg h4, if_neg h5, if_neg h6,
        if_neg h7, h32, if_false, List.cons_append, List.nil_append]
      simp only [parseStrTail, if_neg h1, if_neg h2, h32, if_false]
      simp [hrec]

/-- Condition on the text that follows a printed number literal: the parser
must not be able to swallow any further characters. -/
def numTailOk : Str → Prop
  | [] => True
  | c :: _ => c.isDigit = false ∧ c ≠ '.'

theorem wsChar_numTail {c : Char} (h : isJsonWs c = true) : c.isDigit = false ∧ c ≠ '.' := by
  have h4 : c = ' ' ∨ c = '\n' ∨ c = '\t' ∨ c = '\r' := by
    have := h
    simp only [isJsonWs, Bool.or_eq_true, decide_eq_true_eq] at this
    tauto
  rcases h4 with rfl | rfl | rfl | rfl <;> exact ⟨by decide, by decide⟩

theorem numTailOk_ws_append {mid l : Str} (hmid : wsOnly mid) (h : numTailOk l) :
    numTailOk (mid ++ l) := by
  cases mid with
  | nil => simpa using h
  | cons c t => exact wsChar_numTail (hmid c (by simp))

theorem numTailOk_cons {c : Char} (h1 : c.isDigit = false) (h2 : c ≠ '.') (l : Str) :
    numTailOk (c :: l) :=
  ⟨h1, h2⟩

theorem digit_char_facts {c : Char} (h : c.isDigit = true) :
    isJsonWs c = false ∧ c ≠ '"' ∧ c ≠ '{' ∧ c ≠ '[' ∧ c ≠ '-' ∧ c ≠ ']' ∧ c ≠ '}' := by
  refine ⟨isDigit_not_ws h, ?_, ?_, ?_, ?_, ?_, ?_⟩ <;>
    (rintro rfl; exact absurd h (by decide))

theorem mem_revMapDC_isDigit {l : List Nat} (hl : ∀ d ∈ l, d < 10) :
    ∀ c ∈ (l.map Nat.digitChar).reverse, c.isDigit = true := by
  intro c hc
  rw [List.mem_reverse] at hc
  obtain ⟨d, hd, rfl⟩ := List.mem_map.mp hc
  exact digitChar_isDigit (hl d hd)

theorem revMapDC_digitVal {l : List Nat} (hl : ∀ d ∈ l, d < 10) :
    ((l.map Nat.digitChar).reverse).map digitVal = l.reverse := by
  rw [List.map_reverse, List.map_map]
  congr 1
  refine List.map_congr_left ?_ |>.trans (List.map_id l)
  intro d hd
  exact digitVal_digitChar (hl d hd)

theorem natOfBE_revMapDC {l : List Nat} (hl : ∀ d ∈ l, d < 10) :
    natOfBE (((l.map Nat.digitChar).reverse).map digitVal) = Nat.ofDigits 10 l := by
  rw [revMapDC_digitVal hl, natOfBE_reverse]

/-- Parsing the printed digits-point-digits body of a decimal recovers the
numerator and the fraction-digit count exactly. -/
theorem parseNumTail_numBody (neg : Bool) (n e : Nat) (rest : Str) (hrest : numTailOk rest) :
    parseNumTail neg (numBody n e ++ rest) =
      some (.num (if neg then -(n : Int) else (n : Int)) e, rest) := by
  have hrest2 : rest = [] ∨ ∃ c t, rest = c :: t ∧ c.isDigit = false := by
    cases rest with
    | nil => exact Or.inl rfl
    | cons c t => exact Or.inr ⟨c, t, rfl, hrest.1⟩
  unfold numBody
  set f := e + 1 with hf
  set ds := digits10 n with hds
  set padded := ds ++ List.replicate (f + 1 - ds.length) 0 with hpadded
  have hlen : f + 1 ≤ padded.length := by
    simp only [hpadded, List.length_append, List.length_replicate]
    omega
  have hlt : ∀ d ∈ padded, d < 10 := by
    intro d hd
    rcases List.mem_append.mp hd with h | h
    · exact digits10_lt n d h
    · simp [List.eq_of_mem_replicate h]
  have hltInt : ∀ d ∈ padded.drop f, d < 10 := fun d hd => hlt d (List.mem_of_mem_drop hd)
  have hltFrac : ∀ d ∈ padded.take f, d < 10 := fun d hd => hlt d (List.mem_of_mem_take hd)
  set intC := ((padded.drop f).map Nat.digitChar).reverse with hintC
  set fracC := ((padded.take f).map Nat.digitChar).reverse with hfracC
  have hintDigits : ∀ c ∈ intC, c.isDigit = true := mem_revMapDC_isDigit hltInt
  have hfracDigits : ∀ c ∈ fracC, c.isDigit = true := mem_revMapDC_isDigit hltFrac
  have hintNe : intC ≠ [] := by
    simp only [hintC, ne_eq, List.reverse_eq_nil_iff, List.map_eq_nil_iff,
      List.drop_eq_nil_iff]
    omega
  have hfracLen : fracC.length = f := by
    simp only [hfracC, List.length_reverse, List.length_map, List.length_take]
    omega
  have hfracNe : fracC ≠ [] := by
    intro hcon
    rw [hcon] at hfracLen
    simp [hf] at hfracLen
  have hTW1 : ((intC ++ '.' :: fracC) ++ rest).takeWhile Char.isDigit = intC := by
    rw [List.append_assoc]
    exact takeWhile_block hintDigits (Or.inr ⟨'.', _, rfl, by decide⟩)
  have hDW1 : ((intC ++ '.' :: fracC) ++ rest).dropWhile Char.isDigit = '.' :: (fracC ++ rest) := by
    rw [List.append_assoc]
    exact dropWhile_block hintDigits (Or.inr ⟨'.', _, rfl, by decide⟩)
  have hTW2 : (fracC ++ rest).takeWhile Char.isDigit = fracC :=
    takeWhile_block hfracDigits (by
      rcases hrest2 with rfl | ⟨c, t, rfl, hc⟩
      · exact Or.inl rfl
      · exact Or.inr ⟨c, t, rfl, hc⟩)
  have hDW2 : (fracC ++ rest).dropWhile Char.isDigit = rest :=
    dropWhile_block hfracDigits (by
      rcases hrest2 with rfl | ⟨c, t, rfl, hc⟩
      · exact Or.inl rfl
      · exact Or.inr ⟨c, t, rfl, hc⟩)
  obtain ⟨d1, ds1, hint⟩ := List.exists_cons_of_ne_nil hintNe
  obtain ⟨d2, ds2, hfrac⟩ := List.exists_cons_of_ne_nil hfracNe
  have hval : natOfBE (((d1 :: ds1) ++ d2 :: ds2).map digitVal) = n := by
    rw [← hint, ← hfrac, hintC, hfracC, ← List.reverse_append, ← List.map_append,
      ← List.map_reverse]
    have : (padded.take f ++ padded.drop f) = padded := List.take_append_drop f padded
    rw [this]
    rw [List.map_reverse]
    rw [natOfBE_revMapDC hlt]
    rw [hpadded]
    rw [Nat.ofDigits_append]
    rw [ofDigits_replicate_zero, hds, ofDigits_digits10]
    ring
  have hlen2 : (d2 :: ds2).length - 1 = e := by
    have h5 := hfracLen
    rw [hfrac] at h5
    simp only [List.length_cons] at h5 ⊢
    omega
  unfold parseNumTail
  rw [hTW1, hDW1, hint]
  simp only [hfrac, hTW2, hDW2, hval, hlen2]
  rw [← hfrac, hTW2, hDW2]
  simp only [hfrac, hval, hlen2]

theorem natChars_digits (n : Nat) : ∀ c ∈ natChars n, c.isDigit = true := by
  unfold natChars
  split
  · intro c hc
    simp only [List.mem_singleton] at hc
    subst hc
    decide
  · exact mem_revMapDC_isDigit (fun d hd => digits10_lt _ d hd)

theorem natChars_ne_nil (n : Nat) : natChars n ≠ [] := by
  unfold natChars
  split
  · simp
  · simp only [natCharsBE, ne_eq, List.reverse_eq_nil_iff, List.map_eq_nil_iff]
    exact digits10_ne_nil (by assumption)

theorem natOfBE_natChars (n : Nat) : natOfBE ((natChars n).map digitVal) = n := by
  unfold natChars
  split
  · rename_i h
    subst h
    rfl
  · rw [natCharsBE, natOfBE_revMapDC (fun d hd => digits10_lt _ d hd),
      ofDigits_digits10]

theorem parseNumTail_natChars (neg : Bool) (n : Nat) (rest : Str) (hrest : numTailOk rest) :
    parseNumTail neg (natChars n ++ rest) =
      some (.int (if neg then -(n : Int) else (n : Int)), rest) := by
  have hdig := natChars_digits n
  have hne := natChars_ne_nil n
  have hrest2 : rest = [] ∨ ∃ c t, rest = c :: t ∧ c.isDigit = false := by
    cases rest with
    | nil => exact Or.inl rfl
    | cons c t => exact Or.inr ⟨c, t, rfl, hrest.1⟩
  have hTW : (natChars n ++ rest).takeWhile Char.isDigit = natChars n :=
    takeWhile_block hdig hrest2
  have hDW : (natChars n ++ rest).dropWhile Char.isDigit = rest :=
    dropWhile_block hdig hrest2
  obtain ⟨d, ds, hnd⟩ := List.exists_cons_of_ne_nil hne
  unfold parseNumTail
  rw [hTW, hDW, hnd]
  split
  · rename_i heq
    simp at heq
  · rename_i d2 ds2 heq
    injection heq with h1 h2
    subst h1
    subst h2
    split
    · exact absurd rfl hrest.2
    · simp [← hnd, natOfBE_natChars]

theorem numBody_shape (n e : Nat) : ∃ d t, numBody n e = d :: t ∧ d.isDigit = true := by
  unfold numBody
  set f := e + 1 with hf
  set ds := digits10 n with hds
  set padded := ds ++ List.replicate (f + 1 - ds.length) 0 with hpadded
  have hlen : f + 1 ≤ padded.length := by
    simp only [hpadded, List.length_append, List.length_replicate]
    omega
  have hltInt : ∀ d ∈ padded.drop f, d < 10 := by
    intro d hd
    rcases List.mem_append.mp (List.mem_of_mem_drop hd) with h | h
    · exact digits10_lt n d h
    · simp [List.eq_of_mem_replicate h]
  have hintNe : ((padded.drop f).map Nat.digitChar).reverse ≠ [] := by
    simp only [ne_eq, List.reverse_eq_nil_iff, List.map_eq_nil_iff, List.drop_eq_nil_iff]
    omega
  obtain ⟨d, t, hdt⟩ := List.exists_cons_of_ne_nil hintNe
  refine ⟨d, t ++ '.' :: ((padded.take f).map Nat.digitChar).reverse, ?_, ?_⟩
  · dsimp only
    rw [hdt]
    simp only [List.cons_append]
  · exact mem_revMapDC_isDigit hltInt d (by rw [hdt]; simp)

theorem jparseVal_str (fuel : Nat) (s pre rest : Str)
    (hfuel : 0 < fuel) (hpre : wsOnly pre) :
    jparseVal fuel (pre ++ dumpStrLit s ++ rest) = some (.str s, rest) := by
  obtain ⟨k, rfl⟩ : ∃ k, fuel = k + 1 := ⟨fuel - 1, by omega⟩
  have h1 : pre ++ dumpStrLit s ++ rest = pre ++ '"' :: (escString s ++ '"' :: rest) := by
    simp [dumpStrLit]
  rw [h1]
  simp only [jparseVal]
  rw [skipWs_append hpre, skipWs_cons_of_not (by decide)]
  simp
  exact parseStrTail_esc s _ rest (by have := escString_length s; omega)

theorem jparseVal_intLit (fuel : Nat) (m : Int) (pre rest : Str)
    (hfuel : 0 < fuel) (hpre : wsOnly pre) (hrest : numTailOk rest) :
    jparseVal fuel (pre ++ intChars m ++ rest) = some (.int m, rest) := by
  obtain ⟨k, rfl⟩ : ∃ k, fuel = k + 1 := ⟨fuel - 1, by omega⟩
  by_cases hm : m < 0
  · have h1 : pre ++ intChars m ++ rest = pre ++ '-' :: (natChars m.natAbs ++ rest) := by
      simp [intChars, hm]
    rw [h1]
    simp only [jparseVal]
    rw [skipWs_append hpre, skipWs_cons_of_not (by decide)]
    dsimp only
    rw [if_neg (by decide : ¬('-' = '"')), if_neg (by decide : ¬('-' = '{')),
      if_neg (by decide : ¬('-' = '[')), if_pos rfl]
    rw [parseNumTail_natChars true _ rest hrest]
    have h2 : -((m.natAbs : Int)) = m := by omega
    simp [h2, abs_of_neg hm]
  · have h1 : pre ++ intChars m ++ rest = pre ++ (natChars m.natAbs ++ rest) := by
      simp [intChars, hm]
    rw [h1]
    obtain ⟨d, ds, hnd⟩ := List.exists_cons_of_ne_nil (natChars_ne_nil m.natAbs)
    have hd : d.isDigit = true := natChars_digits _ d (by rw [hnd]; simp)
    obtain ⟨hws, hq, hbrace, hbrack, hminus, _, _⟩ := digit_char_facts hd
    rw [hnd]
    simp only [jparseVal, List.cons_append]
    rw [skipWs_append hpre, skipWs_cons_of_not hws]
    dsimp only
    rw [if_neg hq, if_neg hbrace, if_neg hbrack, if_neg hminus, if_pos hd]
    rw [← List.cons_append, ← hnd, parseNumTail_natChars false _ rest hrest]
    have h2 : ((m.natAbs : Int)) = m := by omega
    simp [h2, abs_of_nonneg (not_lt.mp hm)]

theorem jparseVal_numLit (fuel : Nat) (m : Int) (e : Nat) (pre rest : Str)
    (hfuel : 0 < fuel) (hpre : wsOnly pre) (hrest : numTailOk rest) :
    jparseVal fuel (pre ++ numChars m e ++ rest) = some (.num m e, rest) := by
  obtain ⟨k, rfl⟩ : ∃ k, fuel = k + 1 := ⟨fuel - 1, by omega⟩
  by_cases hm : m < 0
  · have h1 : pre ++ numChars m e ++ rest = pre ++ '-' :: (numBody m.natAbs e ++ rest) := by
      simp [numChars, hm]
    rw [h1]
    simp only [jparseVal]
    rw [skipWs_append hpre, skipWs_cons_of_not (by decide)]
    dsimp only
    rw [if_neg (by decide : ¬('-' = '"')), if_neg (by decide : ¬('-' = '{')),
      if_neg (by decide : ¬('-' = '[')), if_pos rfl]
    rw [parseNumTail_numBody true _ e rest hrest]
    have h2 : -((m.natAbs : Int)) = m := by omega
    simp [h2, abs_of_neg hm]
  · have h1 : pre ++ numChars m e ++ rest = pre ++ (numBody m.natAbs e ++ rest) := by
      simp [numChars, hm]
    rw [h1]
    obtain ⟨d, ds, hnd⟩ := numBody_shape m.natAbs e
    have hd : d.isDigit = true := hnd.2
    obtain ⟨hws, hq, hbrace, hbrack, hminus, _, _⟩ := digit_char_facts hd
    rw [hnd.1]
    simp only [jparseVal, List.cons_append]
    rw [skipWs_append hpre, skipWs_cons_of_not hws]
    dsimp only
    rw [if_neg hq, if_neg hbrace, if_neg hbrack, if_neg hminus, if_pos hd]
    rw [← List.cons_append, ← hnd.1, parseNumTail_numBody false _ e rest hrest]
    have h2 : ((m.natAbs : Int)) = m := by omega
    simp [h2, abs_of_nonneg (not_lt.mp hm)]

theorem wsOnly_append {a b : Str} (ha : wsOnly a) (hb : wsOnly b) : wsOnly (a ++ b) := by
  intro c hc
  rcases List.mem_append.mp hc with h | h
  · exact ha c h
  · exact hb c h

/-- The first printed character of any value is never whitespace and never a
closing bracket, so the parser's dispatch on the head character is sound. -/
theorem jdump_headOk (v : JVal) (lvl : Nat) :
    ∃ c t, jdump v lvl = c :: t ∧ isJsonWs c = false ∧ c ≠ ']' ∧ c ≠ '}' := by
  cases v with
  | str s => exact ⟨'"', _, rfl, by decide, by decide, by decide⟩
  | int m =>
    show ∃ c t, intChars m = c :: t ∧ _
    unfold intChars
    by_cases hm : m < 0
    · rw [if_pos hm]
      exact ⟨'-', _, rfl, by decide, by decide, by decide⟩
    · rw [if_neg hm]
      obtain ⟨d, ds, hnd⟩ := List.exists_cons_of_ne_nil (natChars_ne_nil m.natAbs)
      have hd := natChars_digits m.natAbs d (by rw [hnd]; simp)
      obtain ⟨hws, _, _, _, _, hrb, hrc⟩ := digit_char_facts hd
      rw [hnd]
      exact ⟨d, ds, by simp, hws, hrb, hrc⟩
  | num m e =>
    show ∃ c t, numChars m e = c :: t ∧ _
    unfold numChars
    by_cases hm : m < 0
    · rw [if_pos hm]
      exact ⟨'-', _, rfl, by decide, by decide, by decide⟩
    · rw [if_neg hm]
      obtain ⟨d, ds, hnd, hd⟩ := numBody_shape m.natAbs e
      obtain ⟨hws, _, _, _, _, hrb, hrc⟩ := digit_char_facts hd
      rw [hnd]
      exact ⟨d, ds, by simp, hws, hrb, hrc⟩
  | arr xs =>
    cases xs with
    | nil => exact ⟨'[', _, rfl, by decide, by decide, by decide⟩
    | cons x xs => exact ⟨'[', _, rfl, by decide, by decide, by decide⟩
  | obj fs =>
    cases fs with
    | nil => exact ⟨'{', _, rfl, by decide, by decide, by decide⟩
    | cons f fs => exact ⟨'{', _, rfl, by decide, by decide, by decide⟩

/-- The head of a non-empty item block is the head of its first printed value,
after the leading indentation. -/
theorem jdumpItems_cons_eq (x : JVal) (xs : List JVal) (lvl : Nat) :
    ∃ tail, jdumpItems (x :: xs) lvl = jpad lvl ++ jdump x lvl ++ tail := by
  cases xs with
  | nil => exact ⟨[], by simp [jdumpItems]⟩
  | cons y ys => exact ⟨',' :: '\n' :: jdumpItems (y :: ys) lvl, by simp [jdumpItems]⟩

/-- A non-empty field block starts with indentation, then a quoted key. -/
theorem jdumpFields_cons_eq (k : Str) (v : JVal) (fs : List (Str × JVal)) (lvl : Nat) :
    ∃ tail, jdumpFields ((k, v) :: fs) lvl
      = jpad lvl ++ '"' :: (escString k ++ '"' :: (':' :: ' ' :: (jdump v lvl ++ tail))) := by
  cases fs with
  | nil => exact ⟨[], by simp [jdumpFields, dumpStrLit]⟩
  | cons g gs =>
    exact ⟨',' :: '\n' :: jdumpFields (g :: gs) lvl, by simp [jdumpFields, dumpStrLit]⟩

/-- Hypothesis-free form of `parseStrTail_esc` at the fuel the parser uses. -/
theorem parseStrTail_esc_auto (s rest : Str) :
    parseStrTail ((escString s ++ '"' :: rest).length + 1) (escString s ++ '"' :: rest)
      = some (s, rest) :=
  parseStrTail_esc s _ rest (by
    have := escString_length s
    simp only [List.length_append, List.length_cons]
    omega)

/-- Printer–parser round trip for values, item blocks and field blocks at once,
by induction on the parser fuel. -/
theorem parse_dump_all (fuel : Nat) :
    (∀ (v : JVal) (lvl : Nat) (pre rest : Str), jsize v < fuel → wsOnly pre → numTailOk rest →
      jparseVal fuel (pre ++ jdump v lvl ++ rest) = some (v, rest)) ∧
    (∀ (x : JVal) (xs : List JVal) (lvl : Nat) (pre mid rest : Str),
      jsizeItems (x :: xs) < fuel → wsOnly pre → wsOnly mid →
      jparseItems fuel (pre ++ jdumpItems (x :: xs) lvl ++ mid ++ ']' :: rest)
        = some (x :: xs, rest)) ∧
    (∀ (k : Str) (v : JVal) (fs : List (Str × JVal)) (lvl : Nat) (pre mid rest : Str),
      jsizeFields ((k, v) :: fs) < fuel → wsOnly pre → wsOnly mid →
      jparseFields fuel (pre ++ jdumpFields ((k, v) :: fs) lvl ++ mid ++ '}' :: rest)
        = some ((k, v) :: fs, rest)) := by
  induction fuel with
  | zero => refine ⟨?_, ?_, ?_⟩ <;> (intros; omega)
  | succ fuel ih =>
    obtain ⟨ihV, ihI, ihF⟩ := ih
    refine ⟨?_, ?_, ?_⟩
    · intro v lvl pre rest hsz hpre hrest
      match v with
      | .str s => exact jparseVal_str _ s pre rest (by omega) hpre
      | .int m => exact jparseVal_intLit _ m pre rest (by omega) hpre hrest
      | .num m e => exact jparseVal_numLit _ m e pre rest (by omega) hpre hrest
      | .arr [] =>
        rw [show pre ++ jdump (.arr []) lvl ++ rest = pre ++ '[' :: (']' :: rest) by
          simp [jdump]]
        simp only [jparseVal]
        rw [skipWs_append hpre, skipWs_cons_of_not (by decide)]
        rfl
      | .arr (x :: xs) =>
        obtain ⟨tail, htail⟩ := jdumpItems_cons_eq x xs (lvl + 1)
        obtain ⟨c0, t0, hd0, hws0, hrb0, hrc0⟩ := jdump_headOk x (lvl + 1)
        rw [show pre ++ jdump (.arr (x :: xs)) lvl ++ rest
            = pre ++ '[' :: ('\n' :: (jdumpItems (x :: xs) (lvl + 1)
                ++ ('\n' :: jpad lvl) ++ (']' :: rest))) by simp [jdump]]
        simp only [jparseVal]
        rw [skipWs_append hpre, skipWs_cons_of_not (by decide)]
        dsimp only
        rw [if_neg (by decide : ¬('[' = '"')), if_neg (by decide : ¬('[' = '{')), if_pos rfl]
        have h2 : skipWs ('\n' :: (jdumpItems (x :: xs) (lvl + 1)
              ++ ('\n' :: jpad lvl) ++ (']' :: rest)))
            = c0 :: (t0 ++ (tail ++ ('\n' :: jpad lvl) ++ (']' :: rest))) := by
          rw [htail, hd0]
          rw [show ('\n' :: ((jpad (lvl + 1) ++ (c0 :: t0) ++ tail)
                ++ ('\n' :: jpad lvl) ++ (']' :: rest)))
              = ('\n' :: jpad (lvl + 1))
                ++ (c0 :: (t0 ++ (tail ++ ('\n' :: jpad lvl) ++ (']' :: rest)))) by simp]
          rw [skipWs_append (wsOnly_cons (by decide) (wsOnly_jpad _)), skipWs_cons_of_not hws0]
        rw [h2]
        split
        · rename_i r2 heq
          simp only [List.cons.injEq] at heq
          exact absurd heq.1 hrb0
        · have h3 := ihI x xs (lvl + 1) ['\n'] ('\n' :: jpad lvl) rest
            (by simp only [jsize] at hsz; omega)
            (wsOnly_cons (by decide) wsOnly_nil)
            (wsOnly_cons (by decide) (wsOnly_jpad lvl))
          rw [show ('\n' :: (jdumpItems (x :: xs) (lvl + 1) ++ ('\n' :: jpad lvl) ++ (']' :: rest)))
              = ['\n'] ++ jdumpItems (x :: xs) (lvl + 1) ++ ('\n' :: jpad lvl) ++ ']' :: rest by
            simp]
          rw [h3]
          rfl
      | .obj [] =>
        rw [show pre ++ jdump (.obj []) lvl ++ rest = pre ++ '{' :: ('}' :: rest) by
          simp [jdump]]
        simp only [jparseVal]
        rw [skipWs_append hpre, skipWs_cons_of_not (by decide)]
        rfl
      | .obj ((k, v) :: fs) =>
        obtain ⟨tail, htail⟩ := jdumpFields_cons_eq k v fs (lvl + 1)
        rw [show pre ++ jdump (.obj ((k, v) :: fs)) lvl ++ rest
            = pre ++ '{' :: ('\n' :: (jdumpFields ((k, v) :: fs) (lvl + 1)
                ++ ('\n' :: jpad lvl) ++ ('}' :: rest))) by simp [jdump]]
        simp only [jparseVal]
        rw [skipWs_append hpre, skipWs_cons_of_not (by decide)]
        dsimp only
        rw [if_neg (by decide : ¬('{' = '"')), if_pos rfl]
        have h2 : skipWs ('\n' :: (jdumpFields ((k, v) :: fs) (lvl + 1)
              ++ ('\n' :: jpad lvl) ++ ('}' :: rest)))
            = '"' :: (escString k ++ '"' :: (':' :: ' ' :: (jdump v (lvl + 1) ++ tail))
                ++ ('\n' :: jpad lvl) ++ ('}' :: rest)) := by
          rw [htail]
          rw [show ('\n' :: ((jpad (lvl + 1)
                ++ '"' :: (escString k ++ '"' :: (':' :: ' ' :: (jdump v (lvl + 1) ++ tail))))
                ++ ('\n' :: jpad lvl) ++ ('}' :: rest)))
              = ('\n' :: jpad (lvl + 1))
                ++ ('"' :: ((escString k ++ '"' :: (':' :: ' ' :: (jdump v (lvl + 1) ++ tail)))
                  ++ ('\n' :: jpad lvl) ++ ('}' :: rest))) by simp]
          rw [skipWs_append (wsOnly_cons (by decide) (wsOnly_jpad _)),
            skipWs_cons_of_not (by decide)]
          try simp
        rw [h2]
        split
        · rename_i r2 heq
          simp only [List.cons.injEq] at heq
          exact absurd heq.1 (by decide)
        · have h3 := ihF k v fs (lvl + 1) ['\n'] ('\n' :: jpad lvl) rest
            (by simp only [jsize] at hsz; omega)
            (wsOnly_cons (by decide) wsOnly_nil)
            (wsOnly_cons (by decide) (wsOnly_jpad lvl))
          rw [show ('\n' :: (jdumpFields ((k, v) :: fs) (lvl + 1)
                ++ ('\n' :: jpad lvl) ++ ('}' :: rest)))
              = ['\n'] ++ jdumpFields ((k, v) :: fs) (lvl + 1)
                ++ ('\n' :: jpad lvl) ++ '}' :: rest by simp]
          rw [h3]
          rfl
    · intro x xs lvl pre mid rest hsz hpre hmid
      cases xs with
      | nil =>
        simp only [jparseItems, jdumpItems]
        have hv := ihV x lvl (pre ++ jpad lvl) (mid ++ ']' :: rest)
          (by simp only [jsizeItems] at hsz; omega)
          (wsOnly_append hpre (wsOnly_jpad lvl))
          (numTailOk_ws_append hmid ⟨by decide, by decide⟩)
        rw [show pre ++ (jpad lvl ++ jdump x lvl) ++ mid ++ ']' :: rest
            = (pre ++ jpad lvl) ++ jdump x lvl ++ (mid ++ ']' :: rest) by simp]
        rw [hv]
        dsimp only
        rw [skipWs_append hmid, skipWs_cons_of_not (by decide)]
        rfl
      | cons y ys =>
        simp only [jparseItems, jdumpItems]
        have hv := ihV x lvl (pre ++ jpad lvl)
          (',' :: '\n' :: (jdumpItems (y :: ys) lvl ++ mid ++ ']' :: rest))
          (by simp only [jsizeItems] at hsz; omega)
          (wsOnly_append hpre (wsOnly_jpad lvl))
          ⟨by decide, by decide⟩
        rw [show pre ++ (jpad lvl ++ jdump x lvl
              ++ ',' :: '\n' :: jdumpItems (y :: ys) lvl) ++ mid ++ ']' :: rest
            = (pre ++ jpad lvl) ++ jdump x lvl
              ++ (',' :: '\n' :: (jdumpItems (y :: ys) lvl ++ mid ++ ']' :: rest)) by simp]
        rw [hv]
        dsimp only
        rw [skipWs_cons_of_not (by decide)]
        simp only []
        have h3 := ihI y ys lvl ['\n'] mid rest
          (by simp only [jsizeItems] at hsz ⊢; omega) (wsOnly_cons (by decide) wsOnly_nil) hmid
        rw [show ('\n' :: (jdumpItems (y :: ys) lvl ++ mid ++ ']' :: rest))
            = ['\n'] ++ jdumpItems (y :: ys) lvl ++ mid ++ ']' :: rest by simp]
        rw [h3]
        rfl
    · intro k v fs lvl pre mid rest hsz hpre hmid
      cases fs with
      | nil =>
        simp only [jparseFields, jdumpFields, dumpStrLit]
        rw [show pre ++ (jpad lvl ++ ('"' :: escString k ++ ['"'])
              ++ ':' :: ' ' :: jdump v lvl) ++ mid ++ '}' :: rest
            = (pre ++ jpad lvl)
              ++ '"' :: (escString k ++ '"' :: (':' :: (' ' :: jdump v lvl
                ++ (mid ++ '}' :: rest)))) by simp]
        rw [skipWs_append (wsOnly_append hpre (wsOnly_jpad lvl)),
          skipWs_cons_of_not (by decide)]
        simp only []
        rw [parseStrTail_esc_auto]
        dsimp only
        rw [skipWs_cons_of_not (by decide)]
        simp only []
        have hv := ihV v lvl [' '] (mid ++ '}' :: rest)
          (by simp only [jsizeFields] at hsz; omega)
          (wsOnly_cons (by decide) wsOnly_nil)
          (numTailOk_ws_append hmid ⟨by decide, by decide⟩)
        rw [show (' ' :: jdump v lvl ++ (mid ++ '}' :: rest))
            = [' '] ++ jdump v lvl ++ (mid ++ '}' :: rest) by simp]
        rw [hv]
        dsimp only
        rw [skipWs_append hmid, skipWs_cons_of_not (by decide)]
        rfl
      | cons g gs =>
        obtain ⟨k2, v2⟩ := g
        simp only [jparseFields, jdumpFields, dumpStrLit]
        rw [show pre ++ (jpad lvl ++ ('"' :: escString k ++ ['"'])
              ++ ':' :: ' ' :: jdump v lvl
              ++ ',' :: '\n' :: jdumpFields ((k2, v2) :: gs) lvl) ++ mid ++ '}' :: rest
            = (pre ++ jpad lvl)
              ++ '"' :: (escString k ++ '"' :: (':' :: (' ' :: jdump v lvl
                ++ (',' :: '\n' :: (jdumpFields ((k2, v2) :: gs) lvl
                  ++ mid ++ '}' :: rest))))) by simp]
        rw [skipWs_append (wsOnly_append hpre (wsOnly_jpad lvl)),
          skipWs_cons_of_not (by decide)]
        simp only []
        rw [parseStrTail_esc_auto]
        dsimp only
        rw [skipWs_cons_of_not (by decide)]
        simp only []
        have hv := ihV v lvl [' ']
          (',' :: '\n' :: (jdumpFields ((k2, v2) :: gs) lvl ++ mid ++ '}' :: rest))
          (by simp only [jsizeFields] at hsz; omega)
          (wsOnly_cons (by decide) wsOnly_nil)
          ⟨by decide, by decide⟩
        rw [show (' ' :: jdump v lvl
              ++ (',' :: '\n' :: (jdumpFields ((k2, v2) :: gs) lvl ++ mid ++ '}' :: rest)))
            = [' '] ++ jdump v lvl
              ++ (',' :: '\n' :: (jdumpFields ((k2, v2) :: gs) lvl ++ mid ++ '}' :: rest)) by
          simp]
        rw [hv]
        dsimp only
        rw [skipWs_cons_of_not (by decide)]
        simp only []
        have h3 := ihF k2 v2 gs lvl ['\n'] mid rest
          (by simp only [jsizeFields] at hsz ⊢; omega) (wsOnly_cons (by decide) wsOnly_nil) hmid
        rw [show ('\n' :: (jdumpFields ((k2, v2) :: gs) lvl ++ mid ++ '}' :: rest))
            = ['\n'] ++ jdumpFields ((k2, v2) :: gs) lvl ++ mid ++ '}' :: rest by simp]
        rw [h3]
        rfl

/-- Round trip for a single value, in applicable form. -/
theorem jparseVal_dump (v : JVal) (lvl : Nat) (pre rest : Str) (fuel : Nat)
    (hsz : jsize v < fuel) (hpre : wsOnly pre) (hrest : numTailOk rest) :
    jparseVal fuel (pre ++ jdump v lvl ++ rest) = some (v, rest) :=
  (parse_dump_all fuel).1 v lvl pre rest hsz hpre hrest

mutual

/-- The fuel measure never exceeds the printed length. -/
theorem jsize_le_dump : ∀ (v : JVal) (lvl : Nat), jsize v ≤ (jdump v lvl).length
  | .str s, _ => by
    simp only [jdump, jsize, dumpStrLit, List.length_cons, List.length_append]
    omega
  | .int m, _ => by
    have h1 : natChars m.natAbs ≠ [] := natChars_ne_nil m.natAbs
    have h2 : 1 ≤ (natChars m.natAbs).length := by
      cases hn : natChars m.natAbs with
      | nil => exact absurd hn h1
      | cons c t => simp
    simp only [jdump, jsize, intChars, List.length_append]
    split <;> simp <;> omega
  | .num m e, _ => by
    obtain ⟨d, t, hdt, _⟩ := numBody_shape m.natAbs e
    simp only [jdump, jsize, numChars, List.length_append, hdt, List.length_cons]
    split <;> simp <;> omega
  | .arr [], _ => by simp [jdump, jsize, jsizeItems]
  | .arr (x :: xs), lvl => by
    have h := jsizeItems_le_dump x xs (lvl + 1)
    simp only [jdump, jsize, List.length_cons, List.length_append, jpad,
      List.length_replicate]
    omega
  | .obj [], _ => by simp [jdump, jsize, jsizeFields]
  | .obj ((k, v2) :: fs), lvl => by
    have h := jsizeFields_le_dump k v2 fs (lvl + 1)
    simp only [jdump, jsize, List.length_cons, List.length_append, jpad,
      List.length_replicate]
    omega

termination_by v lvl => sizeOf v

/-- Item-block form of `jsize_le_dump` (one unit of slack for the final item). -/
theorem jsizeItems_le_dump : ∀ (x : JVal) (xs : List JVal) (lvl : Nat),
    jsizeItems (x :: xs) ≤ (jdumpItems (x :: xs) lvl).length + 1
  | x, [], lvl => by
    have h := jsize_le_dump x lvl
    simp only [jsizeItems, jdumpItems, List.length_append]
    omega
  | x, y :: ys, lvl => by
    have h1 := jsize_le_dump x lvl
    have h2 := jsizeItems_le_dump y ys lvl
    simp only [jsizeItems] at h2
    simp only [jsizeItems, jdumpItems, List.length_append, List.length_cons]
    omega

termination_by x xs lvl => sizeOf x + sizeOf xs

/-- Field-block form of `jsize_le_dump`. -/
theorem jsizeFields_le_dump : ∀ (k : Str) (v : JVal) (fs : List (Str × JVal)) (lvl : Nat),
    jsizeFields ((k, v) :: fs) ≤ (jdumpFields ((k, v) :: fs) lvl).length + 1
  | _, v, [], lvl => by
    have h := jsize_le_dump v lvl
    simp only [jsizeFields, jdumpFields, List.length_append, List.length_cons]
    omega
  | _, v, (k2, v2) :: gs, lvl => by
    have h1 := jsize_le_dump v lvl
    have h2 := jsizeFields_le_dump k2 v2 gs lvl
    simp only [jsizeFields] at h2
    simp only [jsizeFields, jdumpFields, List.length_append, List.length_cons]
    omega
termination_by k v fs lvl => sizeOf v + sizeOf fs

end

/-- `json.loads` inverts `json.dumps` on every value tree. -/
theorem jloads_jdump (v : JVal) : jloads (jdump v 0) = some v := by
  unfold jloads
  have h := jparseVal_dump v 0 [] [] ((jdump v 0).length + 1)
    (by have := jsize_le_dump v 0; omega) wsOnly_nil trivial
  simp only [List.nil_append, List.append_nil] at h
  rw [h]
  rfl

/-! ### The artifact tree (src/models/modules.py)

`Modules → ModuleModel → TaskModel → TaskCategoryModel`, embedded as plain
structures.  Hour estimates are Python floats; a float value rendered by Python
always has at least one fraction digit, so it is embedded as the exact decimal
`m / 10 ^ (e + 1)` (`Dec`). -/

/-- Exact decimal `m / 10 ^ (e + 1)`: the embedding of a float hour value. -/
structure Dec where
  m : Int
  e : Nat
deriving DecidableEq

/-- Rational value of an embedded float. -/
def Dec.val (d : Dec) : ℚ :=
  (d.m : ℚ) / (10 : ℚ) ^ (d.e + 1)

/-- `TaskCategoryModel`: category name (enum value or free string), hours
(float, `ge=0`), subtask description, short name. -/
structure TaskCategoryModel where
  category : Str
  hours : Dec
  subtask : Str
  short_name : Str
deriving DecidableEq

/-- `TaskModel`: task name, description, category leaves, short name. -/
structure TaskModel where
  task : Str
  description : Str
  categories : List TaskCategoryModel
  short_name : Str
deriving DecidableEq

/-- `ModuleModel`: module name, short name, tasks. -/
structure ModuleModel where
  module : Str
  short_name : Str
  tasks : List TaskModel
deriving DecidableEq

/-- `Modules`: the artifact root — project name and modules. -/
structure Modules where
  project_name : Str
  modules : List ModuleModel
deriving DecidableEq

/-- `TaskModel.hours`: sum of the category hours (a derived property). -/
def TaskModel.hours (t : TaskModel) : ℚ :=
  (t.categories.map (fun c => c.hours.val)).sum

/-- `TaskModel.subtasks`: number of category leaves. -/
def TaskModel.subtasks (t : TaskModel) : Nat :=
  t.categories.length

/-- `ModuleModel.hours`: sum over tasks. -/
def ModuleModel.hours (m : ModuleModel) : ℚ :=
  (m.tasks.map TaskModel.hours).sum

/-- `ModuleModel.subtasks`: sum over tasks. -/
def ModuleModel.subtasks (m : ModuleModel) : Nat :=
  (m.tasks.map TaskModel.subtasks).sum

/-- `Modules.hours`: total estimated hours of the artifact. -/
def Modules.hours (a : Modules) : ℚ :=
  (a.modules.map ModuleModel.hours).sum

/-- `Modules.subtasks`: total subtask count of the artifact. -/
def Modules.subtasks (a : Modules) : Nat :=
  (a.modules.map ModuleModel.subtasks).sum

/-! #### Serialization: `model_dump(mode="json")` -/

/-- `TaskCategoryModel.model_dump`: fields in declaration order. -/
def TaskCategoryModel.toJVal (c : TaskCategoryModel) : JVal :=
  .obj [("category".data, .str c.category), ("hours".data, .num c.hours.m c.hours.e),
        ("subtask".data, .str c.subtask), ("short_name".data, .str c.short_name)]

/-- `TaskModel.model_dump`. -/
def TaskModel.toJVal (t : TaskModel) : JVal :=
  .obj [("task".data, .str t.task), ("description".data, .str t.description),
        ("categories".data, .arr (t.categories.map TaskCategoryModel.toJVal)),
        ("short_name".data, .str t.short_name)]

/-- `ModuleModel.model_dump`. -/
def ModuleModel.toJVal (m : ModuleModel) : JVal :=
  .obj [("module".data, .str m.module), ("short_name".data, .str m.short_name),
        ("tasks".data, .arr (m.tasks.map TaskModel.toJVal))]

/-- `Modules.model_dump`. -/
def Modules.toJVal (a : Modules) : JVal :=
  .obj [("project_name".data, .str a.project_name),
        ("modules".data, .arr (a.modules.map ModuleModel.toJVal))]

/-! #### Validation: `cls(**data)` (pydantic)

Every encoder above emits all fields, so the decoder requires each field to be
present and well-typed; unknown extra keys are ignored, as pydantic does.  The
`hours` field carries the `ge=0` constraint from `Field(..., ge=0)`; a JSON
integer is coerced to the float it denotes. -/

/-- Python `dict` lookup on an association list (keys are unique). -/
def dictLookup (fs : List (Str × JVal)) (k : Str) : Option JVal :=
  match fs with
  | [] => none
  | (k2, v) :: t => if k2 = k then some v else dictLookup t k

/-- Accept a string field. -/
def asStr : Option JVal → Option Str
  | some (.str s) => some s
  | _ => none

/-- Accept the float field `hours` with its `ge=0` constraint; an integer is
coerced (`n` becomes the decimal `n.0`). -/
def asHours : Option JVal → Option Dec
  | some (.num m e) => if 0 ≤ m then some ⟨m, e⟩ else none
  | some (.int m) => if 0 ≤ m then some ⟨m * 10, 0⟩ else none
  | _ => none

/-- Validate every element of a list (pydantic `List[...]` fields). -/
def allValid {α β : Type} (f : α → Option β) : List α → Option (List β)
  | [] => some []
  | x :: xs =>
    match f x, allValid f xs with
    | some y, some ys => some (y :: ys)
    | _, _ => none

/-- `TaskCategoryModel(**data)`. -/
def TaskCategoryModel.fromJVal : JVal → Option TaskCategoryModel
  | .obj fs =>
    match asStr (dictLookup fs ("category".data)), asHours (dictLookup fs ("hours".data)),
      asStr (dictLookup fs ("subtask".data)), asStr (dictLookup fs ("short_name".data)) with
    | some cat, some h, some st, some sn => some ⟨cat, h, st, sn⟩
    | _, _, _, _ => none
  | _ => none

/-- `TaskModel(**data)`. -/
def TaskModel.fromJVal : JVal → Option TaskModel
  | .obj fs =>
    match asStr (dictLookup fs ("task".data)), asStr (dictLookup fs ("description".data)),
      dictLookup fs ("categories".data), asStr (dictLookup fs ("short_name".data)) with
    | some ta, some de, some (.arr cs), some sn =>
      match allValid TaskCategoryModel.fromJVal cs with
      | some cats => some ⟨ta, de, cats, sn⟩
      | none => none
    | _, _, _, _ => none
  | _ => none

/-- `ModuleModel(**data)`. -/
def ModuleModel.fromJVal : JVal → Option ModuleModel
  | .obj fs =>
    match asStr (dictLookup fs ("module".data)), asStr (dictLookup fs ("short_name".data)),
      dictLookup fs ("tasks".data) with
    | some mo, some sn, some (.arr ts) =>
      match allValid TaskModel.fromJVal ts with
      | some tasks => some ⟨mo, sn, tasks⟩
      | none => none
    | _, _, _ => none
  | _ => none

/-- `Modules(**data)`. -/
def Modules.fromJVal : JVal → Option Modules
  | .obj fs =>
    match asStr (dictLookup fs ("project_name".data)), dictLookup fs ("modules".data) with
    | some pn, some (.arr ms) =>
      match allValid ModuleModel.fromJVal ms with
      | some mods => some ⟨pn, mods⟩
      | none => none
    | _, _ => none
  | _ => none

/-! #### Validity (the `ge=0` invariant every constructed object satisfies) -/

/-- A category leaf is valid when its hour value is non-negative (pydantic
rejects construction otherwise). -/
def TaskCategoryModel.valid (c : TaskCategoryModel) : Prop :=
  0 ≤ c.hours.m

/-- All category leaves of a task are valid. -/
def TaskModel.valid (t : TaskModel) : Prop :=
  ∀ c ∈ t.categories, c.valid

/-- All tasks of a module are valid. -/
def ModuleModel.valid (m : ModuleModel) : Prop :=
  ∀ t ∈ m.tasks, t.valid

/-- All modules of an artifact are valid. -/
def Modules.valid (a : Modules) : Prop :=
  ∀ m ∈ a.modules, m.valid

/-! #### Tree-level round trip -/

theorem allValid_map {α β : Type} (f : β → Option α) (g : α → β) (l : List α)
    (h : ∀ x ∈ l, f (g x) = some x) : allValid f (l.map g) = some l := by
  induction l with
  | nil => rfl
  | cons x xs ih =>
    simp only [List.map_cons, allValid, h x (by simp)]
    rw [ih (fun y hy => h y (by simp [hy]))]

theorem cat_fromJVal_toJVal (c : TaskCategoryModel) (hc : c.valid) :
    TaskCategoryModel.fromJVal c.toJVal = some c := by
  have h0 : 0 ≤ c.hours.m := hc
  simp [TaskCategoryModel.toJVal, TaskCategoryModel.fromJVal, dictLookup, asStr, asHours, h0]

theorem task_fromJVal_toJVal (t : TaskModel) (ht : t.valid) :
    TaskModel.fromJVal t.toJVal = some t := by
  have hcats : allValid TaskCategoryModel.fromJVal (t.categories.map TaskCategoryModel.toJVal)
      = some t.categories :=
    allValid_map _ _ _ (fun c hcmem => cat_fromJVal_toJVal c (ht c hcmem))
  simp [TaskModel.toJVal, TaskModel.fromJVal, dictLookup, asStr, hcats]

theorem module_fromJVal_toJVal (m : ModuleModel) (hm : m.valid) :
    ModuleModel.fromJVal m.toJVal = some m := by
  have htasks : allValid TaskModel.fromJVal (m.tasks.map TaskModel.toJVal) = some m.tasks :=
    allValid_map _ _ _ (fun t htm => task_fromJVal_toJVal t (hm t htm))
  simp [ModuleModel.toJVal, ModuleModel.fromJVal, dictLookup, asStr, htasks]

theorem modules_fromJVal_toJVal (a : Modules) (ha : a.valid) :
    Modules.fromJVal a.toJVal = some a := by
  have hmods : allValid ModuleModel.fromJVal (a.modules.map ModuleModel.toJVal)
      = some a.modules :=
    allValid_map _ _ _ (fun m hmm => module_fromJVal_toJVal m (ha m hmm))
  simp [Modules.toJVal, Modules.fromJVal, dictLookup, asStr, hmods]

/-- Validation only accepts non-negative hour values, so every decoded
artifact is valid. -/
theorem cat_fromJVal_valid {x : JVal} {c : TaskCategoryModel}
    (h : TaskCategoryModel.fromJVal x = some c) : c.valid := by
  unfold TaskCategoryModel.fromJVal at h
  split at h
  · split at h
    · rename_i cat hh st sn heq1 heq2 heq3 heq4
      cases h
      unfold asHours at heq2
      split at heq2
      · split at heq2
        · cases heq2
          assumption
        · cases heq2
      · rename_i hm
        split at heq2
        · rename_i hm2
          cases heq2
          exact mul_nonneg hm2 (by norm_num)
        · cases heq2
      · cases heq2
    · cases h
  · cases h

theorem allValid_mem {α β : Type} {f : α → Option β} {l : List α} {r : List β}
    (h : allValid f l = some r) : ∀ y ∈ r, ∃ x ∈ l, f x = some y := by
  induction l generalizing r with
  | nil =>
    cases h
    intro y hy
    cases hy
  | cons x xs ih =>
    unfold allValid at h
    split at h
    · rename_i y ys hy hys
      cases h
      intro z hz
      rcases List.mem_cons.mp hz with rfl | hz2
      · exact ⟨x, by simp, hy⟩
      · obtain ⟨w, hw1, hw2⟩ := ih hys z hz2
        exact ⟨w, by simp [hw1], hw2⟩
    · cases h

theorem task_fromJVal_valid {x : JVal} {t : TaskModel}
    (h : TaskModel.fromJVal x = some t) : t.valid := by
  unfold TaskModel.fromJVal at h
  split at h
  · split at h
    · split at h
      · rename_i heqc
        cases h
        intro c hcmem
        obtain ⟨w, _, hw⟩ := allValid_mem heqc c hcmem
        exact cat_fromJVal_valid hw
      · cases h
    · cases h
  · cases h

theorem module_fromJVal_valid {x : JVal} {m : ModuleModel}
    (h : ModuleModel.fromJVal x = some m) : m.valid := by
  unfold ModuleModel.fromJVal at h
  split at h
  · split at h
    · split at h
      · rename_i heqt
        cases h
        intro t htmem
        obtain ⟨w, _, hw⟩ := allValid_mem heqt t htmem
        exact task_fromJVal_valid hw
      · cases h
    · cases h
  · cases h

theorem modules_fromJVal_valid {x : JVal} {a : Modules}
    (h : Modules.fromJVal x = some a) : a.valid := by
  unfold Modules.fromJVal at h
  split at h
  · split at h
    · split at h
      · rename_i heqm
        cases h
        intro m hmmem
        obtain ⟨w, _, hw⟩ := allValid_mem heqm m hmmem
        exact module_fromJVal_valid hw
      · cases h
    · cases h
  · cases h

/-! ### Text cleaning (src/helpers/utils.py)

`remove_backticks` strips one fenced code block (three backticks, a word, a
newline, a greedy DOTALL body, a newline, three backticks), keeping the body;
`remove_comments` is `re.sub(r'\s+//\s+.*', '', text)`: a whitespace run
immediately followed by `//` and further whitespace is removed together with
the remainder of that line.  Both are modelled over ASCII whitespace. -/

/-- The backtick character (ASCII 96). -/
def backquote : Char := Char.ofNat 96

/-- Python `\s` on ASCII text. -/
def isPyWs (c : Char) : Bool :=
  c = ' ' || c = '\t' || c = '\n' || c = '\r' || c = '\x0b' || c = '\x0c'

/-- Python `\w` (word character). -/
def isWordChar (c : Char) : Bool :=
  c.isAlphanum || c = '_'

/-- Recognize a fence head (three backticks, ≥ 1 word character, newline) and
return the body start. -/
def fenceHead (cs : Str) : Option Str :=
  match cs with
  | a :: b :: c :: rest =>
    if a = backquote ∧ b = backquote ∧ c = backquote then
      match rest.takeWhile isWordChar, rest.dropWhile isWordChar with
      | _ :: _, '\n' :: body => some body
      | _, _ => none
    else none
  | _ => none

/-- Index of the last occurrence of newline-plus-three-backticks (the closing
fence the greedy DOTALL body stops before). -/
def lastFenceClose : Str → Option Nat
  | [] => none
  | c :: cs =>
    match lastFenceClose cs with
    | some i => some (i + 1)
    | none =>
      match c, cs with
      | '\n', a :: b :: d :: _ =>
        if a = backquote ∧ b = backquote ∧ d = backquote then some 0 else none
      | _, _ => none

/-- `remove_backticks` with explicit fuel (the scan consumes at least one
character per step). -/
def removeBackticksF : Nat → Str → Str
  | 0, cs => cs
  | fuel + 1, cs =>
    match cs with
    | [] => []
    | c :: rest =>
      match fenceHead cs with
      | some body =>
        match lastFenceClose body with
        | some i => body.take i ++ removeBackticksF fuel (body.drop (i + 4))
        | none => c :: removeBackticksF fuel rest
      | none => c :: removeBackticksF fuel rest

/-- `remove_backticks(text)`. -/
def removeBackticks (cs : Str) : Str :=
  removeBackticksF (cs.length + 1) cs

/-- `remove_comments` with explicit fuel.  At a whitespace run the scanner
checks for `//` followed by more whitespace; on a match the run, the slashes,
the whitespace and the rest of the line are dropped and scanning resumes
after the match, mirroring `re.sub`'s non-overlapping scan. -/
def removeCommentsF : Nat → Str → Str
  | 0, cs => cs
  | fuel + 1, cs =>
    match cs with
    | [] => []
    | c :: rest =>
      if isPyWs c then
        let run := cs.takeWhile isPyWs
        let after := cs.dropWhile isPyWs
        match after with
        | '/' :: '/' :: c2 :: rest2 =>
          if isPyWs c2 then
            let after2 := (c2 :: rest2).dropWhile isPyWs
            removeCommentsF fuel (after2.dropWhile (fun c3 => c3 ≠ '\n'))
          else run ++ removeCommentsF fuel after
        | _ => run ++ removeCommentsF fuel after
      else c :: removeCommentsF fuel rest

/-- `remove_comments(text)`. -/
def removeComments (cs : Str) : Str :=
  removeCommentsF (cs.length + 1) cs

/-- `clean_json_str`: strip code fences, then comment-like segments. -/
def clean_json_str (cs : Str) : Str :=
  removeComments (removeBackticks cs)

/-- `clean_yaml_str`: strip code fences only. -/
def clean_yaml_str (cs : Str) : Str :=
  removeBackticks cs

/-! #### Fence stripping is the identity on backquote-free text -/

theorem digitChar_ne_bq {d : Nat} (hd : d < 16) : Nat.digitChar d ≠ backquote := by
  interval_cases d <;> decide

theorem escChar_no_bq (c : Char) (hc : c ≠ backquote) : backquote ∉ escChar c := by
  unfold escChar
  split_ifs with h1 h2 h3 h4 h5 h6 h7 h8
  · decide
  · decide
  · decide
  · decide
  · decide
  · decide
  · decide
  · intro hmem
    rcases List.mem_cons.mp hmem with h | hmem
    · exact absurd h (by decide)
    rcases List.mem_cons.mp hmem with h | hmem
    · exact absurd h (by decide)
    rcases List.mem_cons.mp hmem with h | hmem
    · exact absurd h (by decide)
    rcases List.mem_cons.mp hmem with h | hmem
    · exact absurd h (by decide)
    rcases List.mem_cons.mp hmem with h | hmem
    · exact digitChar_ne_bq (by omega) h.symm
    rcases List.mem_cons.mp hmem with h | hmem
    · exact digitChar_ne_bq (by omega) h.symm
    · cases hmem
  · intro hmem
    rcases List.mem_cons.mp hmem with h | hmem
    · exact hc h.symm
    · cases hmem

theorem escString_no_bq (s : Str) (hs : backquote ∉ s) : backquote ∉ escString s := by
  induction s with
  | nil => simp [escString]
  | cons c t ih =>
    have hc : c ≠ backquote := fun h => hs (h ▸ List.mem_cons_self c t)
    have ht : backquote ∉ t := fun h => hs (List.mem_cons_of_mem _ h)
    have hstep : escString (c :: t) = escChar c ++ escString t := rfl
    rw [hstep]
    intro hmem
    rcases List.mem_append.mp hmem with h | h
    · exact escChar_no_bq c hc h
    · exact ih ht h

theorem dumpStrLit_no_bq (s : Str) (hs : backquote ∉ s) : backquote ∉ dumpStrLit s := by
  unfold dumpStrLit
  intro hmem
  rcases List.mem_cons.mp hmem with h | hmem
  · exact absurd h (by decide)
  rcases List.mem_append.mp hmem with h | h
  · exact escString_no_bq s hs h
  · exact absurd (List.mem_singleton.mp h) (by decide)

theorem natChars_no_bq (n : Nat) : backquote ∉ natChars n := by
  intro h
  exact absurd (natChars_digits n _ h) (by decide)

theorem intChars_no_bq (m : Int) : backquote ∉ intChars m := by
  unfold intChars
  intro h
  rcases List.mem_append.mp h with h | h
  · split at h
    · exact absurd (List.mem_singleton.mp h) (by decide)
    · cases h
  · exact natChars_no_bq _ h

theorem numBody_no_bq (n e : Nat) : backquote ∉ numBody n e := by
  unfold numBody
  intro hmem
  set f := e + 1 with hf
  set ds := digits10 n with hds
  set padded := ds ++ List.replicate (f + 1 - ds.length) 0 with hpadded
  have hlt : ∀ d ∈ padded, d < 10 := by
    intro d hd
    rcases List.mem_append.mp hd with h | h
    · exact digits10_lt n d h
    · simp [List.eq_of_mem_replicate h]
  rcases List.mem_append.mp hmem with h | h
  · exact absurd (mem_revMapDC_isDigit (fun d hd => hlt d (List.mem_of_mem_drop hd)) _ h)
      (by decide)
  · rcases List.mem_cons.mp h with h | h
    · exact absurd h (by decide)
    · exact absurd (mem_revMapDC_isDigit (fun d hd => hlt d (List.mem_of_mem_take hd)) _ h)
        (by decide)

theorem numChars_no_bq (m : Int) (e : Nat) : backquote ∉ numChars m e := by
  unfold numChars
  intro h
  rcases List.mem_append.mp h with h | h
  · split at h
    · exact absurd (List.mem_singleton.mp h) (by decide)
    · cases h
  · exact numBody_no_bq _ _ h

theorem jpad_no_bq (lvl : Nat) : backquote ∉ jpad lvl := by
  intro h
  exact absurd (List.eq_of_mem_replicate h) (by decide)

mutual

/-- No-backquote predicate on value trees (over all string leaves and keys). -/
def jvalNoBq : JVal → Bool
  | .str s => decide (backquote ∉ s)
  | .int _ => true
  | .num _ _ => true
  | .arr xs => jitemsNoBq xs
  | .obj fs => jfieldsNoBq fs

/-- Item-list form of `jvalNoBq`. -/
def jitemsNoBq : List JVal → Bool
  | [] => true
  | x :: xs => jvalNoBq x && jitemsNoBq xs

/-- Field-list form of `jvalNoBq`. -/
def jfieldsNoBq : List (Str × JVal) → Bool
  | [] => true
  | (k, v) :: fs => decide (backquote ∉ k) && jvalNoBq v && jfieldsNoBq fs

end

theorem nmem_cons {α : Type} {a c : α} {l : List α} (hc : a ≠ c) (hl : a ∉ l) :
    a ∉ c :: l :=
  fun hmem => (List.mem_cons.mp hmem).elim hc hl

theorem nmem_append {α : Type} {a : α} {l m : List α} (hl : a ∉ l) (hm : a ∉ m) :
    a ∉ l ++ m :=
  fun hmem => (List.mem_append.mp hmem).elim hl hm

mutual

/-- The canonical printer emits no backquote on backquote-free trees. -/
theorem jdump_no_bq : ∀ (v : JVal) (lvl : Nat), jvalNoBq v = true →
    backquote ∉ jdump v lvl
  | .str s, _ => fun h => by
    simp only [jvalNoBq, decide_eq_true_eq] at h
    exact dumpStrLit_no_bq s h
  | .int m, _ => fun _ => intChars_no_bq m
  | .num m e, _ => fun _ => numChars_no_bq m e
  | .arr [], lvl => fun _ => by
    simp only [jdump]
    decide
  | .arr (x :: xs), lvl => fun h => by
    rw [jvalNoBq] at h
    have h2 := jdumpItems_no_bq x xs (lvl + 1) h
    simp only [jdump]
    exact nmem_cons (by decide) (nmem_cons (by decide)
      (nmem_append (nmem_append h2 (nmem_cons (by decide) (jpad_no_bq lvl)))
        (by decide)))
  | .obj [], lvl => fun _ => by
    simp only [jdump]
    decide
  | .obj ((k, v) :: fs), lvl => fun h => by
    rw [jvalNoBq] at h
    have h2 := jdumpFields_no_bq k v fs (lvl + 1) h
    simp only [jdump]
    exact nmem_cons (by decide) (nmem_cons (by decide)
      (nmem_append (nmem_append h2 (nmem_cons (by decide) (jpad_no_bq lvl)))
        (by decide)))

termination_by v lvl => sizeOf v

/-- Item-block form of `jdump_no_bq`. -/
theorem jdumpItems_no_bq : ∀ (x : JVal) (xs : List JVal) (lvl : Nat),
    jitemsNoBq (x :: xs) = true → backquote ∉ jdumpItems (x :: xs) lvl
  | x, [], lvl => fun h => by
    rw [jitemsNoBq, Bool.and_eq_true] at h
    simp only [jdumpItems]
    exact nmem_append (jpad_no_bq lvl) (jdump_no_bq x lvl h.1)
  | x, y :: ys, lvl => fun h => by
    rw [jitemsNoBq, Bool.and_eq_true] at h
    have h2 := jdumpItems_no_bq y ys lvl h.2
    simp only [jdumpItems]
    exact nmem_append (nmem_append (jpad_no_bq lvl) (jdump_no_bq x lvl h.1))
      (nmem_cons (by decide) (nmem_cons (by decide) h2))

termination_by x xs lvl => sizeOf x + sizeOf xs

/-- Field-block form of `jdump_no_bq`. -/
theorem jdumpFields_no_bq : ∀ (k : Str) (v : JVal) (fs : List (Str × JVal)) (lvl : Nat),
    jfieldsNoBq ((k, v) :: fs) = true → backquote ∉ jdumpFields ((k, v) :: fs) lvl
  | k, v, [], lvl => fun h => by
    rw [jfieldsNoBq, Bool.and_eq_true, Bool.and_eq_true] at h
    simp only [jdumpFields]
    exact nmem_append (nmem_append (jpad_no_bq lvl)
        (dumpStrLit_no_bq k (of_decide_eq_true h.1.1)))
      (nmem_cons (by decide) (nmem_cons (by decide) (jdump_no_bq v lvl h.1.2)))
  | k, v, (k2, v2) :: gs, lvl => fun h => by
    rw [jfieldsNoBq, Bool.and_eq_true, Bool.and_eq_true] at h
    have h2 := jdumpFields_no_bq k2 v2 gs lvl h.2
    simp only [jdumpFields]
    exact nmem_append (nmem_append (nmem_append (jpad_no_bq lvl)
          (dumpStrLit_no_bq k (of_decide_eq_true h.1.1)))
        (nmem_cons (by decide) (nmem_cons (by decide) (jdump_no_bq v lvl h.1.2))))
      (nmem_cons (by decide) (nmem_cons (by decide) h2))

termination_by k v fs lvl => sizeOf v + sizeOf fs

end

theorem fenceHead_no_bq {cs : Str} (h : backquote ∉ cs) : fenceHead cs = none := by
  cases cs with
  | nil => rfl
  | cons a rest1 =>
    cases rest1 with
    | nil => rfl
    | cons b rest2 =>
      cases rest2 with
      | nil => rfl
      | cons c rest3 =>
        have hne : ¬(a = backquote ∧ b = backquote ∧ c = backquote) := by
          intro hcon
          obtain ⟨h1, -, -⟩ := hcon
          subst h1
          exact h (List.mem_cons_self _ _)
        unfold fenceHead
        simp only []
        rw [if_neg hne]

theorem removeBackticksF_no_bq : ∀ (fuel : Nat) (cs : Str), backquote ∉ cs →
    removeBackticksF fuel cs = cs
  | 0, _, _ => rfl
  | _ + 1, [], _ => rfl
  | fuel + 1, c :: rest, h => by
    have hfh := fenceHead_no_bq h
    unfold removeBackticksF
    rw [hfh]
    simp only []
    rw [removeBackticksF_no_bq fuel rest (fun hm => h (List.mem_cons_of_mem _ hm))]

/-- `remove_backticks` leaves backquote-free text unchanged. -/
theorem removeBackticks_no_bq {cs : Str} (h : backquote ∉ cs) :
    removeBackticks cs = cs :=
  removeBackticksF_no_bq _ cs h

/-- YAML cleaning is the identity on the canonical output of the printer when
no string leaf contains a backquote. -/
theorem clean_yaml_str_jdump (v : JVal) (h : jvalNoBq v = true) :
    clean_yaml_str (jdump v 0) = jdump v 0 :=
  removeBackticks_no_bq (jdump_no_bq v 0 h)

/-! ### Textual encodings of the artifact (src/models/basemodel.py)

`to_json` is `json.dumps(self.model_dump(mode="json"), indent=4)`;
`from_json` is `cls(**json.loads(clean_json_str(data)))` (with `fuzzy=False`);
`from_yaml` is `cls(**yaml.safe_load(clean_yaml_str(data)))`.
`yaml.safe_load` is modelled on the union of the flow-style (JSON)
sublanguage — YAML is a superset of JSON, so on flow documents the two
parsers agree — and the block sublanguage the dumper below emits. -/

/-- `Modules.to_json()`. -/
def Modules.to_json (a : Modules) : Str :=
  jdump a.toJVal 0

/-- `Modules.from_json(data)`: clean, parse, validate. -/
def Modules.from_json (s : Str) : Option Modules :=
  (jloads (clean_json_str s)).bind Modules.fromJVal

/-! #### The YAML block dumper (`to_yaml`)

Models `yaml.dump(self.model_dump(mode="json"), sort_keys=False, indent=4,
width=1000)` with the repository's registered double-quote string representer:
a block-style rendering with double-quoted scalars.  Line folding never
triggers at width 1000 for the documents at hand and is not modelled. -/

mutual

/-- Rendering of the value of a mapping entry (after the colon). -/
def yamlEntryVal : JVal → Nat → Str
  | .obj (f :: fs), lvl => '\n' :: yamlDumpMap (f :: fs) (lvl + 1)
  | .arr (x :: xs), lvl => '\n' :: yamlDumpSeq (x :: xs) lvl
  | .obj [], _ => ' ' :: '{' :: '}' :: ['\n']
  | .arr [], _ => ' ' :: '[' :: ']' :: ['\n']
  | .str s, _ => ' ' :: dumpStrLit s ++ ['\n']
  | .int m, _ => ' ' :: intChars m ++ ['\n']
  | .num m e, _ => ' ' :: numChars m e ++ ['\n']

/-- Block mapping, one `"key": value` line per entry. -/
def yamlDumpMap : List (Str × JVal) → Nat → Str
  | [], _ => []
  | (k, v) :: fs, lvl =>
      jpad lvl ++ dumpStrLit k ++ ':' :: yamlEntryVal v lvl ++ yamlDumpMap fs lvl

/-- Block sequence: dash items at the parent indentation. -/
def yamlDumpSeq : List JVal → Nat → Str
  | [], _ => []
  | x :: xs, lvl =>
      jpad lvl ++ '-' :: ' ' :: ' ' :: ' ' :: yamlSeqItem x lvl ++ yamlDumpSeq xs lvl

/-- One sequence element; a mapping element starts on the dash line and
continues one indentation level deeper. -/
def yamlSeqItem : JVal → Nat → Str
  | .obj ((k, v) :: fs), lvl =>
      dumpStrLit k ++ ':' :: yamlEntryVal v (lvl + 1) ++ yamlDumpMap fs (lvl + 1)
  | .obj [], _ => '{' :: '}' :: ['\n']
  | .arr _, _ => '[' :: ']' :: ['\n']
  | .str s, _ => dumpStrLit s ++ ['\n']
  | .int m, _ => intChars m ++ ['\n']
  | .num m e, _ => numChars m e ++ ['\n']

end

/-- Top-level YAML document. -/
def yamlDumpTop : JVal → Str
  | .obj fs => yamlDumpMap fs 0
  | v => yamlSeqItem v 0

/-- `Modules.to_yaml()`. -/
def Modules.to_yaml (a : Modules) : Str :=
  yamlDumpTop a.toJVal

/-! #### The block parser half of `yaml.safe_load`

`yaml.safe_load` reads both flow-style (JSON) documents and block documents;
the block half is modelled by an indentation-driven recursive-descent parser
over the sublanguage the dumper above emits (block mappings with quoted keys,
dash sequences, double-quoted or numeric scalars). -/

/-- Does `cs` begin with `p`? -/
def hasPre : Str → Str → Bool
  | [], _ => true
  | _ :: _, [] => false
  | p :: ps, c :: cs => p = c && hasPre ps cs

theorem hasPre_append (p t : Str) : hasPre p (p ++ t) = true := by
  induction p with
  | nil => rfl
  | cons c ps ih =>
    show (c = c && hasPre ps (ps ++ t)) = true
    rw [ih]
    simp

theorem hasPre_nil_false {p : Str} (h : p ≠ []) : hasPre p [] = false := by
  cases p with
  | nil => exact absurd rfl h
  | cons c t => rfl

theorem hasPre_replicate_false {n m : Nat} {c : Char} {t p2 : Str} (hc : c ≠ ' ')
    (hlt : n < m) :
    hasPre (List.replicate m ' ' ++ p2) (List.replicate n ' ' ++ c :: t) = false := by
  induction n generalizing m with
  | zero =>
    obtain ⟨m2, rfl⟩ : ∃ m2, m = m2 + 1 := ⟨m - 1, by omega⟩
    show (decide (' ' = c) && hasPre (List.replicate m2 ' ' ++ p2) t) = false
    rw [decide_eq_false (fun h => hc h.symm), Bool.false_and]
  | succ n ih =>
    obtain ⟨m2, rfl⟩ : ∃ m2, m = m2 + 1 := ⟨m - 1, by omega⟩
    show (decide (' ' = ' ')
      && hasPre (List.replicate m2 ' ' ++ p2) (List.replicate n ' ' ++ c :: t)) = false
    rw [ih (by omega)]
    simp

theorem hasPre_exact_mismatch {n : Nat} {c d : Char} {t p2 : Str} (hne : c ≠ d) :
    hasPre (List.replicate n ' ' ++ d :: p2) (List.replicate n ' ' ++ c :: t) = false := by
  induction n with
  | zero =>
    show (decide (d = c) && hasPre p2 t) = false
    rw [decide_eq_false (fun h => hne h.symm), Bool.false_and]
  | succ n ih =>
    show (decide (' ' = ' ')
      && hasPre (List.replicate n ' ' ++ d :: p2) (List.replicate n ' ' ++ c :: t)) = false
    rw [ih]
    simp

/-- A scalar line after the `{`, `[`, `-` and default dispatch: empty
collection markers or a number, up to the newline. -/
def yparseScalarTail (c : Char) (rest : Str) : Option (JVal × Str) :=
  if c = '{' then
    match rest with
    | '}' :: '\n' :: rest2 => some (.obj [], rest2)
    | _ => none
  else if c = '[' then
    match rest with
    | ']' :: '\n' :: rest2 => some (.arr [], rest2)
    | _ => none
  else if c = '-' then
    match parseNumTail true rest with
    | some (v, '\n' :: rest2) => some (v, rest2)
    | _ => none
  else
    match parseNumTail false (c :: rest) with
    | some (v, '\n' :: rest2) => some (v, rest2)
    | _ => none

/-- A full scalar line: a double-quoted string, an empty collection marker, or
a number, consumed through its newline. -/
def yparseScalar (cs : Str) : Option (JVal × Str) :=
  match cs with
  | [] => none
  | c :: rest =>
    if c = '"' then
      match parseStrTail (rest.length + 1) rest with
      | some (s, '\n' :: rest2) => some (.str s, rest2)
      | _ => none
    else yparseScalarTail c rest

theorem yparseScalar_str (s rest : Str) :
    yparseScalar (dumpStrLit s ++ '\n' :: rest) = some (.str s, rest) := by
  rw [show dumpStrLit s ++ '\n' :: rest = '"' :: (escString s ++ '"' :: ('\n' :: rest)) by
    simp [dumpStrLit]]
  unfold yparseScalar
  simp only [if_true]
  rw [parseStrTail_esc s _ ('\n' :: rest) (by
    have := escString_length s
    simp only [List.length_append, List.length_cons]
    omega)]
  rfl

theorem yparseScalar_int (m : Int) (rest : Str) :
    yparseScalar (intChars m ++ '\n' :: rest) = some (.int m, rest) := by
  by_cases hm : m < 0
  · rw [show intChars m ++ '\n' :: rest = '-' :: (natChars m.natAbs ++ '\n' :: rest) by
      simp [intChars, hm]]
    unfold yparseScalar
    simp only []
    rw [if_neg (by decide)]
    unfold yparseScalarTail
    rw [if_neg (by decide), if_neg (by decide), if_pos rfl]
    rw [parseNumTail_natChars true m.natAbs ('\n' :: rest)
      (numTailOk_cons (by decide) (by decide) _)]
    have hmv : -(m.natAbs : Int) = m := by omega
    rw [hmv]
    rfl
  · obtain ⟨d, ds, hnd⟩ := List.exists_cons_of_ne_nil (natChars_ne_nil m.natAbs)
    have hd : d.isDigit = true := natChars_digits m.natAbs d (by rw [hnd]; simp)
    obtain ⟨-, hq, hbr, hbk, hmi, -, -⟩ := digit_char_facts hd
    rw [show intChars m ++ '\n' :: rest = natChars m.natAbs ++ '\n' :: rest by
      simp [intChars, hm]]
    rw [hnd]
    rw [show (d :: ds) ++ '\n' :: rest = d :: (ds ++ '\n' :: rest) by simp]
    unfold yparseScalar
    simp only []
    rw [if_neg hq]
    unfold yparseScalarTail
    rw [if_neg hbr, if_neg hbk, if_neg hmi]
    rw [show d :: (ds ++ '\n' :: rest) = (d :: ds) ++ '\n' :: rest by simp, ← hnd]
    rw [parseNumTail_natChars false m.natAbs ('\n' :: rest)
      (numTailOk_cons (by decide) (by decide) _)]
    have hmv : (m.natAbs : Int) = m := by omega
    rw [hmv]
    rfl

theorem yparseScalar_num (m : Int) (e : Nat) (rest : Str) :
    yparseScalar (numChars m e ++ '\n' :: rest) = some (.num m e, rest) := by
  by_cases hm : m < 0
  · rw [show numChars m e ++ '\n' :: rest = '-' :: (numBody m.natAbs e ++ '\n' :: rest) by
      simp [numChars, hm]]
    unfold yparseScalar
    simp only []
    rw [if_neg (by decide)]
    unfold yparseScalarTail
    rw [if_neg (by decide), if_neg (by decide), if_pos rfl]
    rw [parseNumTail_numBody true m.natAbs e ('\n' :: rest)
      (numTailOk_cons (by decide) (by decide) _)]
    have hmv : -(m.natAbs : Int) = m := by omega
    rw [hmv]
    rfl
  · obtain ⟨d, t, hdt, hd⟩ := numBody_shape m.natAbs e
    obtain ⟨-, hq, hbr, hbk, hmi, -, -⟩ := digit_char_facts hd
    rw [show numChars m e ++ '\n' :: rest = numBody m.natAbs e ++ '\n' :: rest by
      simp [numChars, hm]]
    rw [hdt]
    rw [show (d :: t) ++ '\n' :: rest = d :: (t ++ '\n' :: rest) by simp]
    unfold yparseScalar
    simp only []
    rw [if_neg hq]
    unfold yparseScalarTail
    rw [if_neg hbr, if_neg hbk, if_neg hmi]
    rw [show d :: (t ++ '\n' :: rest) = (d :: t) ++ '\n' :: rest by simp, ← hdt]
    rw [parseNumTail_numBody false m.natAbs e ('\n' :: rest)
      (numTailOk_cons (by decide) (by decide) _)]
    have hmv : (m.natAbs : Int) = m := by omega
    rw [hmv]
    rfl

theorem yparseScalar_emptyObj (rest : Str) :
    yparseScalar ('{' :: '}' :: '\n' :: rest) = some (.obj [], rest) := rfl

theorem yparseScalar_emptyArr (rest : Str) :
    yparseScalar ('[' :: ']' :: '\n' :: rest) = some (.arr [], rest) := rfl

/-- The continuation after a block at indentation `lvl` is exhausted or opens
a line with strictly shallower indentation. -/
def ystrict (lvl : Nat) (cs : Str) : Prop :=
  cs = [] ∨ ∃ n c t, cs = List.replicate n ' ' ++ c :: t ∧ c ≠ ' ' ∧ n < 4 * lvl

/-- The continuation after a mapping entry or a nested block at `lvl`: a
further quoted key at `lvl`, or a strictly shallower line. -/
def yafterE (lvl : Nat) (cs : Str) : Prop :=
  (∃ t, cs = jpad lvl ++ '"' :: t) ∨ ystrict lvl cs

/-- The continuation after one sequence element at `lvl`: a further dash item
or quoted key at `lvl`, or a strictly shallower line. -/
def yafterS (lvl : Nat) (cs : Str) : Prop :=
  (∃ t, cs = jpad lvl ++ '-' :: t) ∨ yafterE lvl cs

theorem ystrict_succ {lvl : Nat} {cs : Str} (h : ystrict lvl cs) :
    ystrict (lvl + 1) cs := by
  rcases h with rfl | ⟨n, c, t, rfl, hc, hn⟩
  · exact Or.inl rfl
  · exact Or.inr ⟨n, c, t, rfl, hc, by omega⟩

theorem yafterE_ystrict_succ {lvl : Nat} {cs : Str} (h : yafterE lvl cs) :
    ystrict (lvl + 1) cs := by
  rcases h with ⟨t, rfl⟩ | h
  · exact Or.inr ⟨4 * lvl, '"', t, rfl, by decide, by omega⟩
  · exact ystrict_succ h

theorem yafterS_ystrict_succ {lvl : Nat} {cs : Str} (h : yafterS lvl cs) :
    ystrict (lvl + 1) cs := by
  rcases h with ⟨t, rfl⟩ | h
  · exact Or.inr ⟨4 * lvl, '-', t, rfl, by decide, by omega⟩
  · exact yafterE_ystrict_succ h

theorem ystrict_yafterE {lvl : Nat} {cs : Str} (h : ystrict lvl cs) : yafterE lvl cs :=
  Or.inr h

theorem yafterE_yafterS {lvl : Nat} {cs : Str} (h : yafterE lvl cs) : yafterS lvl cs :=
  Or.inr h

theorem ystrict_stopMap {lvl : Nat} {cs : Str} (h : ystrict lvl cs) :
    hasPre (jpad lvl ++ ['"']) cs = false := by
  rcases h with rfl | ⟨n, c, t, rfl, hc, hn⟩
  · exact hasPre_nil_false (by simp [jpad])
  · exact hasPre_replicate_false hc hn

theorem yafterE_stopSeq {lvl : Nat} {cs : Str} (h : yafterE lvl cs) :
    hasPre (jpad lvl ++ ['-', ' ', ' ', ' ']) cs = false := by
  rcases h with ⟨t, rfl⟩ | rfl | ⟨n, c, t, rfl, hc, hn⟩
  · exact hasPre_exact_mismatch (by decide)
  · exact hasPre_nil_false (by simp [jpad])
  · exact hasPre_replicate_false hc hn

/-- Result alternatives of the block parser. -/
inductive YOut : Type where
  | val (v : JVal)
  | fields (fs : List (Str × JVal))
  | items (xs : List JVal)

/-- Parser modes: a mapping-entry value after the colon, a mapping block, a
sequence block, or one sequence element, each at an indentation level. -/
inductive YMode : Type where
  | entry (lvl : Nat)
  | map (lvl : Nat)
  | seq (lvl : Nat)
  | item (lvl : Nat)

/-- The block parser: in `entry` mode, a scalar on the colon's line or a
nested block (a dash sequence at the same level or a mapping one level
deeper) after the newline; in `map` mode, entries while the input keeps the
exact indentation followed by a quoted key; in `seq` mode, dash items while
they keep coming; in `item` mode, a mapping opening on the dash line and
continuing one level deeper, or a scalar line. -/
def yparse : Nat → YMode → Str → Option (YOut × Str)
  | 0, _, _ => none
  | fuel + 1, .entry lvl, cs =>
    match cs with
    | ' ' :: rest =>
      match yparseScalar rest with
      | some (v, rest2) => some (.val v, rest2)
      | none => none
    | '\n' :: rest =>
      if hasPre (jpad lvl ++ ['-', ' ', ' ', ' ']) rest then
        match yparse fuel (.seq lvl) rest with
        | some (.items (x :: xs), rest2) => some (.val (.arr (x :: xs)), rest2)
        | _ => none
      else
        match yparse fuel (.map (lvl + 1)) rest with
        | some (.fields (f :: fs), rest2) => some (.val (.obj (f :: fs)), rest2)
        | _ => none
    | _ => none
  | fuel + 1, .map lvl, cs =>
    if hasPre (jpad lvl ++ ['"']) cs then
      match parseStrTail ((cs.drop (4 * lvl + 1)).length + 1) (cs.drop (4 * lvl + 1)) with
      | some (k, ':' :: cs2) =>
        match yparse fuel (.entry lvl) cs2 with
        | some (.val v, cs3) =>
          match yparse fuel (.map lvl) cs3 with
          | some (.fields fs, cs4) => some (.fields ((k, v) :: fs), cs4)
          | _ => none
        | _ => none
      | _ => none
    else some (.fields [], cs)
  | fuel + 1, .seq lvl, cs =>
    if hasPre (jpad lvl ++ ['-', ' ', ' ', ' ']) cs then
      match yparse fuel (.item lvl) (cs.drop (4 * lvl + 4)) with
      | some (.val x, cs2) =>
        match yparse fuel (.seq lvl) cs2 with
        | some (.items xs, cs3) => some (.items (x :: xs), cs3)
        | _ => none
      | _ => none
    else some (.items [], cs)
  | fuel + 1, .item lvl, cs =>
    match cs with
    | [] => none
    | c :: rest =>
      if c = '"' then
        match parseStrTail (rest.length + 1) rest with
        | some (s, '\n' :: rest2) => some (.val (.str s), rest2)
        | some (k, ':' :: cs2) =>
          match yparse fuel (.entry (lvl + 1)) cs2 with
          | some (.val v, cs3) =>
            match yparse fuel (.map (lvl + 1)) cs3 with
            | some (.fields fs, cs4) => some (.val (.obj ((k, v) :: fs)), cs4)
            | _ => none
          | _ => none
        | _ => none
      else
        match yparseScalarTail c rest with
        | some (v, rest2) => some (.val v, rest2)
        | none => none

/-- The block half of `yaml.safe_load`: a whole nonempty top-level mapping. -/
def yamlLoadBlock (cs : Str) : Option JVal :=
  match yparse (cs.length + 1) (.map 0) cs with
  | some (.fields (f :: fs), []) => some (.obj (f :: fs))
  | _ => none

/-- `yaml.safe_load`: YAML is a superset of JSON, so a flow-style (JSON)
document parses as JSON; otherwise the block sublanguage the dumper emits is
parsed. -/
def yamlLoad (cs : Str) : Option JVal :=
  match jloads cs with
  | some v => some v
  | none => yamlLoadBlock cs

/-- `Modules.from_yaml(data)`: clean, parse, validate. -/
def Modules.from_yaml (s : Str) : Option Modules :=
  (yamlLoad (clean_yaml_str s)).bind Modules.fromJVal

theorem yparseScalarTail_of_scalar {c : Char} {t : Str} {v : JVal} {r : Str}
    (hc : c ≠ '"') (h : yparseScalar (c :: t) = some (v, r)) :
    yparseScalarTail c t = some (v, r) := by
  unfold yparseScalar at h
  simp only [] at h
  rw [if_neg hc] at h
  exact h

/-- A sequence element must not itself be a nonempty array: the dumper prints
any array inside a sequence as `[]`. -/
def notNArr : JVal → Bool
  | .arr (_ :: _) => false
  | _ => true

mutual

/-- Trees the block dumper renders faithfully: no nonempty array directly
inside an array. -/
def yOk : JVal → Bool
  | .str _ => true
  | .int _ => true
  | .num _ _ => true
  | .arr xs => yOkItems xs
  | .obj fs => yOkFields fs

/-- Item-list form of `yOk`. -/
def yOkItems : List JVal → Bool
  | [] => true
  | x :: xs => notNArr x && yOk x && yOkItems xs

/-- Field-list form of `yOk`. -/
def yOkFields : List (Str × JVal) → Bool
  | [] => true
  | (_, v) :: fs => yOk v && yOkFields fs

end

theorem yOkItems_map_obj {α : Type} (f : α → JVal) (l : List α)
    (h : ∀ a ∈ l, (∃ fs, f a = .obj fs) ∧ yOk (f a) = true) :
    yOkItems (l.map f) = true := by
  induction l with
  | nil => rfl
  | cons a t ih =>
    rw [List.map_cons, yOkItems]
    obtain ⟨⟨fs, hfs⟩, hok⟩ := h a (List.mem_cons_self _ _)
    have hn : notNArr (f a) = true := by rw [hfs]; rfl
    rw [hn, hok, ih (fun a2 ha2 => h a2 (List.mem_cons_of_mem _ ha2))]
    rfl

theorem cat_yOk (c : TaskCategoryModel) : yOk c.toJVal = true := by
  simp [TaskCategoryModel.toJVal, yOk, yOkFields]

theorem task_yOk (t : TaskModel) : yOk t.toJVal = true := by
  have harr : yOkItems (t.categories.map TaskCategoryModel.toJVal) = true :=
    yOkItems_map_obj _ _ (fun c _ => ⟨⟨_, rfl⟩, cat_yOk c⟩)
  simp [TaskModel.toJVal, yOk, yOkFields, harr]

theorem module_yOk (m : ModuleModel) : yOk m.toJVal = true := by
  have harr : yOkItems (m.tasks.map TaskModel.toJVal) = true :=
    yOkItems_map_obj _ _ (fun t _ => ⟨⟨_, rfl⟩, task_yOk t⟩)
  simp [ModuleModel.toJVal, yOk, yOkFields, harr]

theorem modulesFields_yOk (a : Modules) :
    yOkFields [("project_name".data, JVal.str a.project_name),
      ("modules".data, .arr (a.modules.map ModuleModel.toJVal))] = true := by
  have harr : yOkItems (a.modules.map ModuleModel.toJVal) = true :=
    yOkItems_map_obj _ _ (fun m _ => ⟨⟨_, rfl⟩, module_yOk m⟩)
  simp [yOk, yOkFields, harr]

/-- The block parser inverts the block dumper: entry values, mapping blocks,
sequence blocks and sequence elements all parse back exactly, leaving the
continuation untouched, whenever the continuation opens as the grammar allows
and the tree puts no nonempty array directly inside an array. -/
theorem yparse_dump_all (fuel : Nat) :
    (∀ (w : JVal) (lvl : Nat) (rest : Str), yOk w = true → yafterE lvl rest →
      (yamlEntryVal w lvl ++ rest).length < fuel →
      yparse fuel (.entry lvl) (yamlEntryVal w lvl ++ rest) = some (.val w, rest)) ∧
    (∀ (fs : List (Str × JVal)) (lvl : Nat) (rest : Str), yOkFields fs = true →
      ystrict lvl rest → (yamlDumpMap fs lvl ++ rest).length < fuel →
      yparse fuel (.map lvl) (yamlDumpMap fs lvl ++ rest) = some (.fields fs, rest)) ∧
    (∀ (xs : List JVal) (lvl : Nat) (rest : Str), yOkItems xs = true →
      yafterE lvl rest → (yamlDumpSeq xs lvl ++ rest).length < fuel →
      yparse fuel (.seq lvl) (yamlDumpSeq xs lvl ++ rest) = some (.items xs, rest)) ∧
    (∀ (x : JVal) (lvl : Nat) (rest : Str), notNArr x = true → yOk x = true →
      yafterS lvl rest → (yamlSeqItem x lvl ++ rest).length < fuel →
      yparse fuel (.item lvl) (yamlSeqItem x lvl ++ rest) = some (.val x, rest)) := by
  induction fuel with
  | zero =>
    refine ⟨?_, ?_, ?_, ?_⟩ <;> (intros; omega)
  | succ fuel ih =>
    obtain ⟨ihE, ihM, ihS, ihI⟩ := ih
    refine ⟨?_, ?_, ?_, ?_⟩
    · intro w lvl rest hok hafter hlen
      match w with
      | .str s =>
        rw [show yamlEntryVal (.str s) lvl ++ rest = ' ' :: (dumpStrLit s ++ '\n' :: rest) by
          simp [yamlEntryVal]]
        simp only [yparse]
        rw [yparseScalar_str]
      | .int m =>
        rw [show yamlEntryVal (.int m) lvl ++ rest = ' ' :: (intChars m ++ '\n' :: rest) by
          simp [yamlEntryVal]]
        simp only [yparse]
        rw [yparseScalar_int]
      | .num m e =>
        rw [show yamlEntryVal (.num m e) lvl ++ rest
            = ' ' :: (numChars m e ++ '\n' :: rest) by simp [yamlEntryVal]]
        simp only [yparse]
        rw [yparseScalar_num]
      | .obj [] =>
        rw [show yamlEntryVal (.obj []) lvl ++ rest = ' ' :: ('{' :: '}' :: '\n' :: rest) by
          simp [yamlEntryVal]]
        simp only [yparse]
        rw [yparseScalar_emptyObj]
      | .arr [] =>
        rw [show yamlEntryVal (.arr []) lvl ++ rest = ' ' :: ('[' :: ']' :: '\n' :: rest) by
          simp [yamlEntryVal]]
        simp only [yparse]
        rw [yparseScalar_emptyArr]
      | .obj ((k, v) :: fs) =>
        have hpad : jpad (lvl + 1)
            = List.replicate (4 * lvl) ' ' ++ ' ' :: List.replicate 3 ' ' := by
          rw [jpad, show 4 * (lvl + 1) = 4 * lvl + 4 by ring, List.replicate_add]
          rfl
        have hshape : yamlDumpMap ((k, v) :: fs) (lvl + 1) ++ rest
            = List.replicate (4 * lvl) ' ' ++ ' ' :: (List.replicate 3 ' '
                ++ (dumpStrLit k ++ (':' :: (yamlEntryVal v (lvl + 1)
                  ++ (yamlDumpMap fs (lvl + 1) ++ rest))))) := by
          simp [yamlDumpMap, hpad]
        rw [show yamlEntryVal (.obj ((k, v) :: fs)) lvl ++ rest
            = '\n' :: (yamlDumpMap ((k, v) :: fs) (lvl + 1) ++ rest) by
          simp [yamlEntryVal]]
        simp only [yparse]
        have hdash : hasPre (jpad lvl ++ ['-', ' ', ' ', ' '])
            (yamlDumpMap ((k, v) :: fs) (lvl + 1) ++ rest) = false := by
          rw [hshape]
          exact hasPre_exact_mismatch (by decide)
        rw [hdash, if_neg Bool.false_ne_true]
        rw [ihM ((k, v) :: fs) (lvl + 1) rest
          (by rw [yOk] at hok; exact hok)
          (yafterE_ystrict_succ hafter)
          (by
            simp only [yamlEntryVal, List.length_cons, List.length_append] at hlen
            simp only [List.length_append]
            omega)]
      | .arr (x :: xs) =>
        rw [show yamlEntryVal (.arr (x :: xs)) lvl ++ rest
            = '\n' :: (yamlDumpSeq (x :: xs) lvl ++ rest) by simp [yamlEntryVal]]
        simp only [yparse]
        have hdash : hasPre (jpad lvl ++ ['-', ' ', ' ', ' '])
            (yamlDumpSeq (x :: xs) lvl ++ rest) = true := by
          rw [show yamlDumpSeq (x :: xs) lvl ++ rest
              = (jpad lvl ++ ['-', ' ', ' ', ' '])
                ++ (yamlSeqItem x lvl ++ (yamlDumpSeq xs lvl ++ rest)) by
            simp [yamlDumpSeq]]
          exact hasPre_append _ _
        rw [hdash, if_pos rfl]
        rw [ihS (x :: xs) lvl rest (by rw [yOk] at hok; exact hok) hafter
          (by
            simp only [yamlEntryVal, List.length_cons, List.length_append] at hlen
            simp only [List.length_append]
            omega)]
    · intro fs lvl rest hok hstrict hlen
      match fs with
      | [] =>
        rw [show yamlDumpMap [] lvl ++ rest = rest by simp [yamlDumpMap]]
        simp only [yparse]
        rw [ystrict_stopMap hstrict, if_neg Bool.false_ne_true]
      | (k, v) :: fs2 =>
        have hshape : yamlDumpMap ((k, v) :: fs2) lvl ++ rest
            = (jpad lvl ++ ['"']) ++ (escString k ++ '"' :: (':' :: (yamlEntryVal v lvl
                ++ (yamlDumpMap fs2 lvl ++ rest)))) := by
          simp [yamlDumpMap, dumpStrLit]
        rw [hshape] at hlen ⊢
        simp only [yparse]
        rw [hasPre_append, if_pos rfl]
        have hdrop : ((jpad lvl ++ ['"']) ++ (escString k ++ '"' :: (':' :: (yamlEntryVal v lvl
              ++ (yamlDumpMap fs2 lvl ++ rest))))).drop (4 * lvl + 1)
            = escString k ++ '"' :: (':' :: (yamlEntryVal v lvl
                ++ (yamlDumpMap fs2 lvl ++ rest))) := by
          rw [show 4 * lvl + 1 = (jpad lvl ++ ['"']).length by simp [jpad]]
          exact List.drop_left _ _
        rw [hdrop]
        rw [parseStrTail_esc k _ _ (by
          have := escString_length k
          simp only [List.length_append, List.length_cons]
          omega)]
        simp only []
        rw [yOkFields] at hok
        rw [Bool.and_eq_true] at hok
        have hafter2 : yafterE lvl (yamlDumpMap fs2 lvl ++ rest) := by
          match fs2 with
          | [] =>
            rw [show yamlDumpMap [] lvl ++ rest = rest by simp [yamlDumpMap]]
            exact ystrict_yafterE hstrict
          | (k2, v2) :: gs =>
            refine Or.inl ⟨escString k2 ++ '"' :: (':' :: (yamlEntryVal v2 lvl
              ++ (yamlDumpMap gs lvl ++ rest))), ?_⟩
            simp [yamlDumpMap, dumpStrLit]
        simp only [List.length_append, List.length_cons] at hlen
        rw [ihE v lvl _ hok.1 hafter2 (by
          simp only [List.length_append]
          omega)]
        simp only []
        rw [ihM fs2 lvl rest hok.2 hstrict (by
          simp only [List.length_append]
          omega)]
    · intro xs lvl rest hok hafter hlen
      match xs with
      | [] =>
        rw [show yamlDumpSeq [] lvl ++ rest = rest by simp [yamlDumpSeq]]
        simp only [yparse]
        rw [yafterE_stopSeq hafter, if_neg Bool.false_ne_true]
      | x :: xs2 =>
        have hshape : yamlDumpSeq (x :: xs2) lvl ++ rest
            = (jpad lvl ++ ['-', ' ', ' ', ' '])
              ++ (yamlSeqItem x lvl ++ (yamlDumpSeq xs2 lvl ++ rest)) := by
          simp [yamlDumpSeq]
        rw [hshape] at hlen ⊢
        simp only [yparse]
        rw [hasPre_append, if_pos rfl]
        have hdrop : ((jpad lvl ++ ['-', ' ', ' ', ' '])
              ++ (yamlSeqItem x lvl ++ (yamlDumpSeq xs2 lvl ++ rest))).drop (4 * lvl + 4)
            = yamlSeqItem x lvl ++ (yamlDumpSeq xs2 lvl ++ rest) := by
          rw [show 4 * lvl + 4 = (jpad lvl ++ ['-', ' ', ' ', ' ']).length by simp [jpad]]
          exact List.drop_left _ _
        rw [hdrop]
        rw [yOkItems] at hok
        simp only [Bool.and_eq_true] at hok
        have hafterS2 : yafterS lvl (yamlDumpSeq xs2 lvl ++ rest) := by
          match xs2 with
          | [] =>
            rw [show yamlDumpSeq [] lvl ++ rest = rest by simp [yamlDumpSeq]]
            exact yafterE_yafterS hafter
          | y :: ys =>
            refine Or.inl ⟨' ' :: ' ' :: ' ' :: (yamlSeqItem y lvl
              ++ (yamlDumpSeq ys lvl ++ rest)), ?_⟩
            simp [yamlDumpSeq]
        simp only [List.length_append, List.length_cons] at hlen
        rw [ihI x lvl _ hok.1.1 hok.1.2 hafterS2 (by
          simp only [List.length_append]
          omega)]
        simp only []
        rw [ihS xs2 lvl rest hok.2 hafter (by
          simp only [List.length_append]
          omega)]
    · intro x lvl rest hnarr hok hafter hlen
      match x with
      | .str s =>
        rw [show yamlSeqItem (.str s) lvl ++ rest
            = '"' :: (escString s ++ '"' :: ('\n' :: rest)) by
          simp [yamlSeqItem, dumpStrLit]]
        simp only [yparse]
        simp only [if_true]
        rw [parseStrTail_esc s _ _ (by
          have := escString_length s
          simp only [List.length_append, List.length_cons]
          omega)]
        rfl
      | .int m =>
        rw [show yamlSeqItem (.int m) lvl ++ rest = intChars m ++ '\n' :: rest by
          simp [yamlSeqItem]]
        by_cases hm : m < 0
        · rw [show intChars m ++ '\n' :: rest = '-' :: (natChars m.natAbs ++ '\n' :: rest) by
            simp [intChars, hm]]
          simp only [yparse]
          rw [if_neg (by decide)]
          rw [yparseScalarTail_of_scalar (by decide) (by
            rw [show '-' :: (natChars m.natAbs ++ '\n' :: rest)
                = intChars m ++ '\n' :: rest by simp [intChars, hm]]
            exact yparseScalar_int m rest)]
        · obtain ⟨d, ds, hnd⟩ := List.exists_cons_of_ne_nil (natChars_ne_nil m.natAbs)
          have hd : d.isDigit = true := natChars_digits m.natAbs d (by rw [hnd]; simp)
          obtain ⟨-, hq, -, -, -, -, -⟩ := digit_char_facts hd
          rw [show intChars m ++ '\n' :: rest = d :: (ds ++ '\n' :: rest) by
            simp [intChars, hm, hnd]]
          simp only [yparse]
          rw [if_neg hq]
          rw [yparseScalarTail_of_scalar hq (by
            rw [show d :: (ds ++ '\n' :: rest) = intChars m ++ '\n' :: rest by
              simp [intChars, hm, hnd]]
            exact yparseScalar_int m rest)]
      | .num m e =>
        rw [show yamlSeqItem (.num m e) lvl ++ rest = numChars m e ++ '\n' :: rest by
          simp [yamlSeqItem]]
        by_cases hm : m < 0
        · rw [show numChars m e ++ '\n' :: rest
              = '-' :: (numBody m.natAbs e ++ '\n' :: rest) by simp [numChars, hm]]
          simp only [yparse]
          rw [if_neg (by decide)]
          rw [yparseScalarTail_of_scalar (by decide) (by
            rw [show '-' :: (numBody m.natAbs e ++ '\n' :: rest)
                = numChars m e ++ '\n' :: rest by simp [numChars, hm]]
            exact yparseScalar_num m e rest)]
        · obtain ⟨d, t, hdt, hd⟩ := numBody_shape m.natAbs e
          obtain ⟨-, hq, -, -, -, -, -⟩ := digit_char_facts hd
          rw [show numChars m e ++ '\n' :: rest = d :: (t ++ '\n' :: rest) by
            simp [numChars, hm, hdt]]
          simp only [yparse]
          rw [if_neg hq]
          rw [yparseScalarTail_of_scalar hq (by
            rw [show d :: (t ++ '\n' :: rest) = numChars m e ++ '\n' :: rest by
              simp [numChars, hm, hdt]]
            exact yparseScalar_num m e rest)]
      | .obj [] =>
        rw [show yamlSeqItem (.obj []) lvl ++ rest = '{' :: ('}' :: '\n' :: rest) by
          simp [yamlSeqItem]]
        simp only [yparse]
        rw [if_neg (by decide)]
        rw [yparseScalarTail_of_scalar (by decide) (yparseScalar_emptyObj rest)]
      | .arr xs =>
        cases xs with
        | cons y ys =>
          rw [notNArr] at hnarr
          exact absurd hnarr (by decide)
        | nil =>
          rw [show yamlSeqItem (.arr []) lvl ++ rest = '[' :: (']' :: '\n' :: rest) by
            simp [yamlSeqItem]]
          simp only [yparse]
          rw [if_neg (by decide)]
          rw [yparseScalarTail_of_scalar (by decide) (yparseScalar_emptyArr rest)]
      | .obj ((k, v) :: fs) =>
        have hshape : yamlSeqItem (.obj ((k, v) :: fs)) lvl ++ rest
            = '"' :: (escString k ++ '"' :: (':' :: (yamlEntryVal v (lvl + 1)
                ++ (yamlDumpMap fs (lvl + 1) ++ rest)))) := by
          simp [yamlSeqItem, dumpStrLit]
        rw [hshape] at hlen ⊢
        simp only [yparse]
        simp only [if_true]
        rw [parseStrTail_esc k _ _ (by
          have := escString_length k
          simp only [List.length_append, List.length_cons]
          omega)]
        simp only []
        rw [yOk] at hok
        rw [yOkFields] at hok
        rw [Bool.and_eq_true] at hok
        have hafter2 : yafterE (lvl + 1) (yamlDumpMap fs (lvl + 1) ++ rest) := by
          match fs with
          | [] =>
            rw [show yamlDumpMap [] (lvl + 1) ++ rest = rest by simp [yamlDumpMap]]
            exact ystrict_yafterE (yafterS_ystrict_succ hafter)
          | (k2, v2) :: gs =>
            refine Or.inl ⟨escString k2 ++ '"' :: (':' :: (yamlEntryVal v2 (lvl + 1)
              ++ (yamlDumpMap gs (lvl + 1) ++ rest))), ?_⟩
            simp [yamlDumpMap, dumpStrLit]
        simp only [List.length_cons, List.length_append] at hlen
        rw [ihE v (lvl + 1) _ hok.1 hafter2 (by
          simp only [List.length_append]
          omega)]
        simp only []
        rw [ihM fs (lvl + 1) rest hok.2 (yafterS_ystrict_succ hafter) (by
          simp only [List.length_append]
          omega)]

/-- Parsing the block dump of a nonempty mapping consumes it exactly. -/
theorem yamlLoadBlock_dumpMap (k : Str) (v : JVal) (fs : List (Str × JVal))
    (hok : yOkFields ((k, v) :: fs) = true) :
    yamlLoadBlock (yamlDumpMap ((k, v) :: fs) 0) = some (.obj ((k, v) :: fs)) := by
  unfold yamlLoadBlock
  have h := (yparse_dump_all ((yamlDumpMap ((k, v) :: fs) 0).length + 1)).2.1
    ((k, v) :: fs) 0 [] hok (Or.inl rfl)
    (by rw [List.append_nil]; omega)
  rw [List.append_nil] at h
  rw [h]

/-- `yaml.safe_load` on the block dump of a nonempty mapping: the flow parser
rejects it (a top-level key is followed by a colon, not end of input), and the
block parser recovers the mapping. -/
theorem yamlLoad_dumpMap (k : Str) (v : JVal) (fs : List (Str × JVal))
    (hok : yOkFields ((k, v) :: fs) = true) :
    yamlLoad (yamlDumpMap ((k, v) :: fs) 0) = some (.obj ((k, v) :: fs)) := by
  unfold yamlLoad
  have hj : jloads (yamlDumpMap ((k, v) :: fs) 0) = none := by
    unfold jloads
    rw [show yamlDumpMap ((k, v) :: fs) 0
        = [] ++ dumpStrLit k ++ (':' :: (yamlEntryVal v 0 ++ yamlDumpMap fs 0)) by
      simp [yamlDumpMap, jpad]]
    rw [jparseVal_str _ k [] _ (by omega) wsOnly_nil]
    simp only []
    rw [skipWs_cons_of_not (by decide)]
    simp
  rw [hj]
  exact yamlLoadBlock_dumpMap k v fs hok

/-- The YAML encoding round-trips: `from_yaml` inverts `to_yaml` on every
valid artifact whose encoded text is unchanged by the decode-side cleaning. -/
theorem modules_from_yaml_to_yaml (a : Modules) (hv : a.valid)
    (hclean : clean_yaml_str (Modules.to_yaml a) = Modules.to_yaml a) :
    Modules.from_yaml (Modules.to_yaml a) = some a := by
  unfold Modules.from_yaml
  rw [hclean]
  unfold Modules.to_yaml
  obtain ⟨pn, ms⟩ := a
  rw [show yamlDumpTop (Modules.toJVal ⟨pn, ms⟩)
      = yamlDumpMap [("project_name".data, JVal.str pn),
          ("modules".data, .arr (ms.map ModuleModel.toJVal))] 0 from rfl]
  rw [yamlLoad_dumpMap _ _ _ (modulesFields_yOk ⟨pn, ms⟩)]
  rw [Option.some_bind]
  exact modules_fromJVal_toJVal ⟨pn, ms⟩ hv

/-! ### Fuzzy field matching (src/helpers/utils.py `find_best_match`,
src/models/basemodel.py `BaseModel.from_dict`) -/

/-- Python exceptions surfaced by the embedded code paths. -/
inductive PyErr : Type where
  | keyError
  | parseError
  | validationError
  | indexError
deriving DecidableEq

/-- `fuzzywuzzy.process.extractOne` with `score_cutoff=0`: the highest-scoring
option, the earliest winning ties; `None` only for an empty option list.  The
lexical similarity scorer (0–100) is a parameter of the model. -/
def extractOne (sim : Str → Str → Nat) (query : Str) : List Str → Option (Str × Nat)
  | [] => none
  | o :: os =>
    match extractOne sim query os with
    | none => some (o, sim query o)
    | some (b, sb) => if sb > sim query o then some (b, sb) else some (o, sim query o)

/-- `find_best_match(query, options)`: the sentinel `(None, 0)` when there are
no options. -/
def find_best_match (sim : Str → Str → Nat) (query : Str) (options : List Str) :
    Option Str × Nat :=
  match extractOne sim query options with
  | none => (none, 0)
  | some (b, s) => (some b, s)

/-- The dict comprehension of the fuzzy branch: for each expected field, keep
the best match when its score reaches the cutoff, indexing `data` at the
matched column (`KeyError` when that key — possibly the `None` sentinel — is
absent). -/
def buildArgs (data : List (Str × JVal)) (cutoff : ℚ) :
    List (Str × (Option Str × Nat)) → Except PyErr (List (Str × JVal))
  | [] => .ok []
  | (f, (col, score)) :: rest =>
    if cutoff ≤ (score : ℚ) then
      match col with
      | none => .error .keyError
      | some k =>
        match dictLookup data k with
        | none => .error .keyError
        | some v => (buildArgs data cutoff rest).map (fun l => (f, v) :: l)
    else buildArgs data cutoff rest

/-- The `fuzzy=True` branch of `BaseModel.from_dict` for a class whose schema
fields are `fields`: normalize an invalid cutoff to `0.0`, best-match every
expected field against the incoming keys, and build the keyword dict that is
passed on to `cls(**data)`. -/
def from_dict_fuzzy (sim : Str → Str → Nat) (fields : List Str)
    (data : List (Str × JVal)) (cutoff : ℚ) : Except PyErr (List (Str × JVal)) :=
  let cutoff2 := if 0 ≤ cutoff ∧ cutoff ≤ 1 then cutoff else 0
  let fieldCol := fields.map (fun f => (f, find_best_match sim f (data.map Prod.fst)))
  buildArgs data cutoff2 fieldCol

/-! ### The store adapter (src/db/abstractdb.py backed by src/db/mongodb.py)

Documents are association lists with unique keys (Python dicts).  ISO-8601
timestamp strings are modelled by the integer seconds they denote
(`isoformat` / `fromisoformat` are mutually inverse). -/

/-- Values stored in documents: JSON payloads, timestamps, and Python `None`. -/
inductive DVal : Type where
  | j (v : JVal)
  | time (t : Int)
  | null

/-- A stored document. -/
abbrev Doc := List (Str × DVal)

/-- The hidden key field injected on writes. -/
def KEY_FIELD : Str := "__key__".data

/-- The write timestamp field. -/
def TIMESTAMP_FIELD : Str := "timestamp".data

/-- Python `d[k] = v`: replace in place, else append. -/
def docSet : Doc → Str → DVal → Doc
  | [], k, v => [(k, v)]
  | (k2, v2) :: t, k, v => if k2 = k then (k, v) :: t else (k2, v2) :: docSet t k v

/-- `dict.pop(k, None)`: drop the binding. -/
def docPop : Doc → Str → Doc
  | [], _ => []
  | (k2, v2) :: t, k => if k2 = k then t else (k2, v2) :: docPop t k

/-- Field lookup. -/
def docGet : Doc → Str → Option DVal
  | [], _ => none
  | (k2, v) :: t, k => if k2 = k then some v else docGet t k

/-- `AbstractDB._remove_key_field` on one document. -/
def removeKeyField (d : Doc) : Doc :=
  docPop d KEY_FIELD

/-- `AbstractDB._add_timestamp` on one document at write time `ts`. -/
def addTimestamp (ts : Int) (d : Doc) : Doc :=
  docSet d TIMESTAMP_FIELD (.time ts)

/-- The document handed to the backend by `AbstractDB.insert`: the key field
is set first, then the timestamp. -/
def insertPayload (value : Doc) (key : Str) (ts : Int) : Doc :=
  addTimestamp ts (docSet value KEY_FIELD (.j (.str key)))

/-- Handed to the backend by `AbstractDB.update`: only the timestamp is added —
no key field is injected. -/
def updatePayload (value : Doc) (ts : Int) : Doc :=
  addTimestamp ts value

/-- Handed to the backend by `AbstractDB.upsert`: timestamp, then key field. -/
def upsertPayload (value : Doc) (key : Str) (ts : Int) : Doc :=
  docSet (addTimestamp ts value) KEY_FIELD (.j (.str key))

/-- Handed to the backend by `AbstractDB.insert_many`: `zip(keys, values)`
sets the key on the first `min(len)` documents, then every document is
timestamped. -/
def insertManyPayload (values : List Doc) (keys : List Str) (ts : Int) : List Doc :=
  (((values.zip keys).map (fun p => docSet p.1 KEY_FIELD (.j (.str p.2))))
    ++ values.drop keys.length).map (addTimestamp ts)

/-- The persistent store: one document per `(collection, key)`. -/
abbrev Store := List ((Str × Str) × Doc)

/-- MongoDB `find_one({__key__: key}) or {}`. -/
def storeGet : Store → Str → Str → Doc
  | [], _, _ => []
  | ((c2, k2), d) :: t, coll, key =>
    if c2 = coll ∧ k2 = key then d else storeGet t coll key

/-- Replace or create the document at `(collection, key)`. -/
def storeSet : Store → Str → Str → Doc → Store
  | [], coll, key, d => [((coll, key), d)]
  | ((c2, k2), d2) :: t, coll, key, d =>
    if c2 = coll ∧ k2 = key then ((coll, key), d) :: t
    else ((c2, k2), d2) :: storeSet t coll key d

/-- MongoDB `$set`: merge the update into the existing document. -/
def docMerge (old upd : Doc) : Doc :=
  upd.foldl (fun acc kv => docSet acc kv.1 kv.2) old

/-- `AbstractDB.get`: backend read, then key-field stripping. -/
def dbGet (st : Store) (coll key : Str) : Doc :=
  removeKeyField (storeGet st coll key)

/-- `AbstractDB.upsert` through MongoDB `update_one(..., $set, upsert=True)`. -/
def dbUpsert (st : Store) (coll key : Str) (value : Doc) (ts : Int) : Store :=
  storeSet st coll key (docMerge (storeGet st coll key) (upsertPayload value key ts))

/-! ### The content cache (src/helpers/cache_utils.py) -/

/-- `cache_utils.save`: wrap the payload with its expiry (`None` for no TTL)
and upsert it. -/
def cacheSave (st : Store) (key coll : Str) (data : JVal) (ttl : Option Int)
    (now : Int) : Store :=
  let expires : DVal :=
    match ttl with
    | none => .null
    | some n => .time (now + n)
  dbUpsert st coll key [("data".data, .j data), ("expires_at".data, expires)] now

/-- `cache_utils.load`: fetch the wrapper; return the payload unless it is
missing, not a dict, or expired while `get_expired` is false.  A missing or
null `expires_at` never expires. -/
def cacheLoad (st : Store) (key coll : Str) (get_expired : Bool) (now : Int) :
    Option (List (Str × JVal)) :=
  let doc := dbGet st coll key
  match docGet doc ("data".data) with
  | some (.j (.obj o)) =>
    match get_expired, docGet doc ("expires_at".data) with
    | true, _ => some o
    | false, none => some o
    | false, some .null => some o
    | false, some (.time exp) => if exp - now < 0 then none else some o
    | false, some (.j _) => none
  | _ => none

/-! ### Cache binding of the artifact (src/models/basemodel.py) -/

/-- `Modules.load_from_cache(key)` (collection defaults to the class name,
`get_expired=False`, `return_as_dict=False`): a deserialization failure is
caught and treated as a miss. -/
def modulesLoadFromCache (st : Store) (key : Str) (now : Int) : Option Modules :=
  match cacheLoad st key ("Modules".data) false now with
  | none => none
  | some d => Modules.fromJVal (.obj d)

/-- `Modules.save_to_cache(key, background=True)` with the 90-day default TTL;
the background write is modelled as having completed. -/
def modulesSaveToCache (st : Store) (a : Modules) (key : Str) (now : Int) : Store :=
  cacheSave st key ("Modules".data) a.toJVal (some (3600 * 24 * 90)) now

/-! ### The generation pipeline (src/models/modules.py `Modules.from_sow`) -/

/-- Pipeline state: the persistent store plus a backend call counter (the
"call-count mock" of the spec's testable properties). -/
structure GenState where
  store : Store
  backendCalls : Nat

/-- `Modules.from_yaml(resp)` as invoked by the pipeline (`fuzzy=False`):
clean, parse, validate; each failure mode is a raised exception. -/
def parseCandidate (s : Str) : Except PyErr Modules :=
  match yamlLoad (clean_yaml_str s) with
  | none => .error .parseError
  | some v =>
    match Modules.fromJVal v with
    | none => .error .validationError
    | some a => .ok a

/-- `[cls.from_yaml(resp) for resp in responses]`: evaluated left to right,
the first exception aborts the whole comprehension. -/
def parseCandidates : List Str → Except PyErr (List Modules)
  | [] => .ok []
  | r :: rs =>
    match parseCandidate r with
    | .error e => .error e
    | .ok a => (parseCandidates rs).map (fun l => a :: l)

/-- The Python sort key `(x.subtasks, x.hours)`. -/
def rankKey (a : Modules) : Nat × ℚ :=
  (a.subtasks, a.hours)

/-- Lexicographic comparison of sort keys (Python tuple `<=`). -/
def rankLe (p q : Nat × ℚ) : Prop :=
  p.1 < q.1 ∨ (p.1 = q.1 ∧ p.2 ≤ q.2)

/-- `a` ranks at least as high as `b` (so `a` sorts before `b` in the
descending order). -/
def rankGe (a b : Modules) : Prop :=
  rankLe (rankKey b) (rankKey a)

instance : DecidableRel rankGe := fun a b => by
  unfold rankGe rankLe
  infer_instance

theorem rankLe_total (p q : Nat × ℚ) : rankLe p q ∨ rankLe q p := by
  unfold rankLe
  rcases lt_trichotomy p.1 q.1 with h | h | h
  · exact Or.inl (Or.inl h)
  · rcases le_total p.2 q.2 with h2 | h2
    · exact Or.inl (Or.inr ⟨h, h2⟩)
    · exact Or.inr (Or.inr ⟨h.symm, h2⟩)
  · exact Or.inr (Or.inl h)

theorem rankLe_trans {p q r : Nat × ℚ} (h1 : rankLe p q) (h2 : rankLe q r) : rankLe p r := by
  unfold rankLe at *
  rcases h1 with h1 | ⟨h1a, h1b⟩ <;> rcases h2 with h2 | ⟨h2a, h2b⟩
  · exact Or.inl (h1.trans h2)
  · exact Or.inl (lt_of_lt_of_eq h1 h2a)
  · exact Or.inl (lt_of_eq_of_lt h1a h2)
  · exact Or.inr ⟨h1a.trans h2a, h1b.trans h2b⟩

instance : IsTotal Modules rankGe :=
  ⟨fun a b => rankLe_total (rankKey b) (rankKey a)⟩

instance : IsTrans Modules rankGe :=
  ⟨fun _ _ _ hab hbc => rankLe_trans hbc hab⟩

/-- `sorted(objects, key=lambda x: (x.subtasks, x.hours), reverse=True)`. -/
def pySortDesc (l : List Modules) : List Modules :=
  l.insertionSort rankGe

/-- `Modules.from_sow(sow, best_of, regenerate)`.

`hashFn` models `hash_uuid(sow).hex` (a deterministic content hash, stdlib
`uuid.uuid3`); `promptOf` models `read_prompt` with its replacements; `llm`
models `call_openai` (the generative backend returning the requested
completions); `now` is the wall clock.  The store and the backend call count
are threaded explicitly; the fire-and-forget cache write is modelled as
having completed. -/
def Modules.from_sow (hashFn : Str → Str) (promptOf : Str → Str)
    (llm : Str → Nat → List Str) (now : Int) (sow : Str)
    (best_of : Nat) (regenerate : Bool) (st : GenState) :
    GenState × Except PyErr Modules :=
  let sow_hash := hashFn sow
  let cached := if regenerate then none else modulesLoadFromCache st.store sow_hash now
  match cached with
  | some obj => (st, .ok obj)
  | none =>
    let prompt := promptOf sow
    let responses := llm prompt best_of
    let st2 : GenState := { st with backendCalls := st.backendCalls + 1 }
    match parseCandidates responses with
    | .error e => (st2, .error e)
    | .ok objs =>
      match pySortDesc objs with
      | [] => (st2, .error .indexError)
      | best :: _ =>
        ({ st2 with store := modulesSaveToCache st2.store best sow_hash now }, .ok best)

/-! ### Document and store lemmas -/

theorem docGet_docSet_same (d : Doc) (k : Str) (v : DVal) :
    docGet (docSet d k v) k = some v := by
  induction d with
  | nil => simp [docSet, docGet]
  | cons p t ih =>
    obtain ⟨k2, v2⟩ := p
    by_cases h : k2 = k
    · subst h
      simp [docSet, docGet]
    · simp [docSet, docGet, h, ih]

theorem docGet_docSet_other (d : Doc) (k k2 : Str) (v : DVal) (h : k2 ≠ k) :
    docGet (docSet d k v) k2 = docGet d k2 := by
  induction d with
  | nil => simp [docSet, docGet, Ne.symm h]
  | cons p t ih =>
    obtain ⟨k3, v3⟩ := p
    by_cases h3 : k3 = k
    · subst h3
      simp [docSet, docGet, Ne.symm h]
    · simp only [docSet, if_neg h3, docGet]
      by_cases h4 : k3 = k2
      · simp [h4]
      · simp [h4, ih]

theorem docGet_docPop_other (d : Doc) (k k2 : Str) (h : k2 ≠ k) :
    docGet (docPop d k) k2 = docGet d k2 := by
  induction d with
  | nil => simp [docPop, docGet]
  | cons p t ih =>
    obtain ⟨k3, v3⟩ := p
    by_cases h3 : k3 = k
    · subst h3
      simp [docPop, docGet, Ne.symm h]
    · simp only [docPop, if_neg h3, docGet]
      by_cases h4 : k3 = k2
      · simp [h4]
      · simp [h4, ih]

theorem docGet_eq_none_of_not_mem (d : Doc) (k : Str) (h : k ∉ d.map Prod.fst) :
    docGet d k = none := by
  induction d with
  | nil => rfl
  | cons p t ih =>
    obtain ⟨k3, v3⟩ := p
    simp only [List.map_cons, List.mem_cons] at h
    push_neg at h
    simp only [docGet, if_neg (fun hh : k3 = k => h.1 hh.symm)]
    exact ih h.2

/-- Popping the key of a document with unique keys (a Python dict) removes it
entirely. -/
theorem docGet_docPop_self (d : Doc) (k : Str) (hud : (d.map Prod.fst).Nodup) :
    docGet (docPop d k) k = none := by
  induction d with
  | nil => rfl
  | cons p t ih =>
    obtain ⟨k3, v3⟩ := p
    simp only [List.map_cons, List.nodup_cons] at hud
    by_cases h3 : k3 = k
    · subst h3
      simp only [docPop, if_pos rfl]
      exact docGet_eq_none_of_not_mem t k3 hud.1
    · simp only [docPop, if_neg h3, docGet, if_neg h3]
      exact ih hud.2

theorem storeGet_storeSet_same (st : Store) (coll key : Str) (d : Doc) :
    storeGet (storeSet st coll key d) coll key = d := by
  induction st with
  | nil => simp [storeSet, storeGet]
  | cons p t ih =>
    obtain ⟨⟨c2, k2⟩, d2⟩ := p
    by_cases h : c2 = coll ∧ k2 = key
    · simp [storeSet, storeGet, h]
    · simp only [storeSet, if_neg h, storeGet, if_neg h]
      exact ih

/-- What `cache_utils.load` sees right after `cache_utils.save` under the same
key: the freshly written payload and expiry, whatever was stored before. -/
theorem cacheLoad_cacheSave (st : Store) (key coll : Str) (data : JVal)
    (ttl : Option Int) (t0 now : Int) (ge : Bool) :
    cacheLoad (cacheSave st key coll data ttl t0) key coll ge now =
      match data with
      | .obj o =>
        match ge, ttl with
        | true, _ => some o
        | false, none => some o
        | false, some n => if (t0 + n) - now < 0 then none else some o
      | _ => none := by
  unfold cacheSave cacheLoad dbUpsert dbGet
  rw [storeGet_storeSet_same]
  set expires : DVal := (match ttl with | none => DVal.null | some n => DVal.time (t0 + n))
    with hexp
  set old := storeGet st coll key with hold
  have hpayload : upsertPayload [("data".data, DVal.j data), ("expires_at".data, expires)]
        key t0
      = [("data".data, DVal.j data), ("expires_at".data, expires),
         (TIMESTAMP_FIELD, DVal.time t0), (KEY_FIELD, DVal.j (.str key))] := by
    simp [upsertPayload, addTimestamp, docSet, KEY_FIELD, TIMESTAMP_FIELD]
  rw [hpayload]
  have hmerge : docMerge old
        [("data".data, DVal.j data), ("expires_at".data, expires),
         (TIMESTAMP_FIELD, DVal.time t0), (KEY_FIELD, DVal.j (.str key))]
      = docSet (docSet (docSet (docSet old ("data".data) (DVal.j data))
          ("expires_at".data) expires) TIMESTAMP_FIELD (DVal.time t0))
          KEY_FIELD (DVal.j (.str key)) := by
    simp [docMerge]
  rw [hmerge]
  have hdata : docGet (removeKeyField (docSet (docSet (docSet (docSet old
        ("data".data) (DVal.j data)) ("expires_at".data) expires)
        TIMESTAMP_FIELD (DVal.time t0)) KEY_FIELD (DVal.j (.str key)))) ("data".data)
      = some (DVal.j data) := by
    unfold removeKeyField
    rw [docGet_docPop_other _ _ _ (by decide),
      docGet_docSet_other _ _ _ _ (by decide),
      docGet_docSet_other _ _ _ _ (by decide),
      docGet_docSet_other _ _ _ _ (by decide),
      docGet_docSet_same]
  have hexpf : docGet (removeKeyField (docSet (docSet (docSet (docSet old
        ("data".data) (DVal.j data)) ("expires_at".data) expires)
        TIMESTAMP_FIELD (DVal.time t0)) KEY_FIELD (DVal.j (.str key)))) ("expires_at".data)
      = some expires := by
    unfold removeKeyField
    rw [docGet_docPop_other _ _ _ (by decide),
      docGet_docSet_other _ _ _ _ (by decide),
      docGet_docSet_other _ _ _ _ (by decide),
      docGet_docSet_same]
  dsimp only
  rw [hdata, hexpf]
  cases data <;> cases ge <;> cases ttl <;> simp [hexp]

/-- Loading right after the pipeline's save returns the saved artifact while
within the 90-day TTL. -/
theorem modulesLoad_after_save (st : Store) (a : Modules) (key : Str) (t0 now : Int)
    (ha : a.valid) (hfresh : now ≤ t0 + 3600 * 24 * 90) :
    modulesLoadFromCache (modulesSaveToCache st a key t0) key now = some a := by
  unfold modulesLoadFromCache modulesSaveToCache
  rw [cacheLoad_cacheSave]
  obtain ⟨pn, ms⟩ := a
  dsimp only [Modules.toJVal]
  rw [if_neg (by omega : ¬ (t0 + 3600 * 24 * 90) - now < 0)]
  exact modules_fromJVal_toJVal ⟨pn, ms⟩ ha

/-- A candidate accepted by `from_yaml` satisfies the `ge=0` constraints. -/
theorem parseCandidate_valid {s : Str} {a : Modules} (h : parseCandidate s = .ok a) :
    a.valid := by
  unfold parseCandidate at h
  split at h
  · cases h
  · split at h
    · cases h
    · rename_i heq
      cases h
      exact modules_fromJVal_valid heq

theorem parseCandidates_ok_valid {rs : List Str} {objs : List Modules}
    (h : parseCandidates rs = .ok objs) : ∀ a ∈ objs, a.valid := by
  induction rs generalizing objs with
  | nil =>
    cases h
    intro a ha
    cases ha
  | cons r rs ih =>
    unfold parseCandidates at h
    split at h
    · cases h
    · rename_i a0 heq0
      cases hrec : parseCandidates rs with
      | error e => rw [hrec] at h; cases h
      | ok tl =>
        rw [hrec] at h
        cases h
        intro a ha
        rcases List.mem_cons.mp ha with rfl | ha2
        · exact parseCandidate_valid heq0
        · exact ih hrec a ha2

/-- One unparseable completion aborts the whole comprehension. -/
theorem parseCandidates_error {rs : List Str} {r : Str} (hmem : r ∈ rs) {e : PyErr}
    (he : parseCandidate r = .error e) : ∃ e2, parseCandidates rs = .error e2 := by
  induction rs with
  | nil => cases hmem
  | cons r0 rs ih =>
    rcases List.mem_cons.mp hmem with rfl | hmem2
    · exact ⟨e, by unfold parseCandidates; rw [he]⟩
    · unfold parseCandidates
      cases h0 : parseCandidate r0 with
      | error e0 => exact ⟨e0, rfl⟩
      | ok a0 =>
        obtain ⟨e2, he2⟩ := ih hmem2
        rw [he2]
        exact ⟨e2, rfl⟩

theorem rankLe_refl (p : Nat × ℚ) : rankLe p p :=
  Or.inr ⟨rfl, le_refl _⟩

theorem pySortDesc_perm (l : List Modules) : (pySortDesc l).Perm l :=
  List.perm_insertionSort _ _

theorem pySortDesc_sorted (l : List Modules) : List.Sorted rankGe (pySortDesc l) :=
  List.sorted_insertionSort _ _

/-- The head of the descending sort is a member of maximal key. -/
theorem pySortDesc_head_max {l : List Modules} {best : Modules} {rest : List Modules}
    (h : pySortDesc l = best :: rest) :
    best ∈ l ∧ ∀ o ∈ l, rankLe (rankKey o) (rankKey best) := by
  have hperm := pySortDesc_perm l
  constructor
  · exact hperm.mem_iff.mp (by rw [h]; simp)
  · intro o ho
    have ho2 : o ∈ pySortDesc l := hperm.mem_iff.mpr ho
    rw [h] at ho2
    rcases List.mem_cons.mp ho2 with rfl | ho3
    · exact rankLe_refl _
    · have hs := pySortDesc_sorted l
      rw [h] at hs
      exact (List.sorted_cons.mp hs).1 o ho3

/-- The generate-parse-rank-persist path of `from_sow` on a cache miss. -/
theorem from_sow_miss {hashFn promptOf : Str → Str} {llm : Str → Nat → List Str}
    {now : Int} {sow : Str} {best_of : Nat} {st : GenState}
    (hmiss : modulesLoadFromCache st.store (hashFn sow) now = none) :
    Modules.from_sow hashFn promptOf llm now sow best_of false st =
      match parseCandidates (llm (promptOf sow) best_of) with
      | .error e => (⟨st.store, st.backendCalls + 1⟩, .error e)
      | .ok objs =>
        match pySortDesc objs with
        | [] => (⟨st.store, st.backendCalls + 1⟩, .error .indexError)
        | best :: _ =>
          (⟨modulesSaveToCache st.store best (hashFn sow) now, st.backendCalls + 1⟩,
            .ok best) := by
  unfold Modules.from_sow
  dsimp only
  rw [hmiss]
  rfl

/-! ### Claim theorems -/

/-- C4: a cache entry saved with a finite TTL and loaded after the TTL has
elapsed returns absent when `get_expired` is false but the original payload
when `get_expired` is true; an entry whose `expires_at` is null is returned
regardless of elapsed time. -/
theorem c4_cache_expiry_semantics (st : Store) (key coll : Str)
    (o : List (Str × JVal)) (t0 now ttl : Int) :
    (ttl < now - t0 →
      cacheLoad (cacheSave st key coll (.obj o) (some ttl) t0) key coll false now = none) ∧
    cacheLoad (cacheSave st key coll (.obj o) (some ttl) t0) key coll true now = some o ∧
    cacheLoad (cacheSave st key coll (.obj o) none t0) key coll false now = some o := by
  refine ⟨?_, ?_, ?_⟩
  · intro hexp
    rw [cacheLoad_cacheSave]
    dsimp only
    rw [if_pos (by omega)]
  · rw [cacheLoad_cacheSave]
  · rw [cacheLoad_cacheSave]

/-- C4 witness: an entry saved with `ttl = 1` second at time 0 and loaded at
time 2 is absent under `allow_expired=false` and recovered under
`allow_expired=true`. -/
theorem c4_cache_expiry_witness :
    cacheLoad (cacheSave [] ("k".data) ("c".data) (.obj [("x".data, .int 1)]) (some 1) 0)
        ("k".data) ("c".data) false 2 = none ∧
    cacheLoad (cacheSave [] ("k".data) ("c".data) (.obj [("x".data, .int 1)]) (some 1) 0)
        ("k".data) ("c".data) true 2 = some [("x".data, .int 1)] :=
  ⟨(c4_cache_expiry_semantics [] ("k".data) ("c".data) [("x".data, .int 1)] 0 2 1).1
      (by norm_num),
    (c4_cache_expiry_semantics [] ("k".data) ("c".data) [("x".data, .int 1)] 0 2 1).2.1⟩

/-- C9 counterexample: the document handed to the backend by
`AbstractDB.update` carries the write timestamp but NOT the hidden key field,
contradicting the claim that every write operation injects both. -/
theorem c9_update_lacks_key_field_counterexample :
    docGet (updatePayload [("a".data, DVal.j (.int 1))] 7) KEY_FIELD = none ∧
    docGet (updatePayload [("a".data, DVal.j (.int 1))] 7) TIMESTAMP_FIELD
      = some (.time 7) :=
  ⟨rfl, rfl⟩

/-- C9 (amended): `insert` and `upsert` inject both the hidden key field and a
write timestamp before the document reaches the backend, and `insert_many`
does so for every zipped (value, key) pair; `update` injects only the
timestamp and passes the key field through unchanged; every read strips the
hidden key field from the returned document. -/
theorem c9_write_inject_read_strip :
    (∀ (value : Doc) (key : Str) (ts : Int),
      docGet (insertPayload value key ts) KEY_FIELD = some (.j (.str key)) ∧
      docGet (insertPayload value key ts) TIMESTAMP_FIELD = some (.time ts)) ∧
    (∀ (value : Doc) (key : Str) (ts : Int),
      docGet (upsertPayload value key ts) KEY_FIELD = some (.j (.str key)) ∧
      docGet (upsertPayload value key ts) TIMESTAMP_FIELD = some (.time ts)) ∧
    (∀ (value : Doc) (ts : Int),
      docGet (updatePayload value ts) TIMESTAMP_FIELD = some (.time ts) ∧
      docGet (updatePayload value ts) KEY_FIELD = docGet value KEY_FIELD) ∧
    (∀ (values : List Doc) (keys : List Str) (ts : Int) (p : Doc × Str),
      p ∈ values.zip keys →
      addTimestamp ts (docSet p.1 KEY_FIELD (.j (.str p.2)))
        ∈ insertManyPayload values keys ts) ∧
    (∀ (values : List Doc) (keys : List Str) (ts : Int),
      ∀ d ∈ insertManyPayload values keys ts,
        docGet d TIMESTAMP_FIELD = some (.time ts)) ∧
    (∀ d : Doc, (d.map Prod.fst).Nodup →
      docGet (removeKeyField d) KEY_FIELD = none) ∧
    (∀ (d : Doc) (k : Str), k ≠ KEY_FIELD →
      docGet (removeKeyField d) k = docGet d k) ∧
    (∀ (st : Store) (coll key : Str), ((storeGet st coll key).map Prod.fst).Nodup →
      docGet (dbGet st coll key) KEY_FIELD = none) := by
  refine ⟨?_, ?_, ?_, ?_, ?_, ?_, ?_, ?_⟩
  · intro value key ts
    unfold insertPayload addTimestamp
    exact ⟨by rw [docGet_docSet_other _ _ _ _ (by decide), docGet_docSet_same],
      docGet_docSet_same _ _ _⟩
  · intro value key ts
    unfold upsertPayload addTimestamp
    exact ⟨docGet_docSet_same _ _ _,
      by rw [docGet_docSet_other _ _ _ _ (by decide), docGet_docSet_same]⟩
  · intro value ts
    unfold updatePayload addTimestamp
    exact ⟨docGet_docSet_same _ _ _, docGet_docSet_other _ _ _ _ (by decide)⟩
  · intro values keys ts p hp
    unfold insertManyPayload
    exact List.mem_map.mpr ⟨_, List.mem_append_left _ (List.mem_map.mpr ⟨p, hp, rfl⟩), rfl⟩
  · intro values keys ts d hd
    unfold insertManyPayload at hd
    obtain ⟨d0, _, rfl⟩ := List.mem_map.mp hd
    exact docGet_docSet_same _ _ _
  · intro d hnd
    exact docGet_docPop_self d KEY_FIELD hnd
  · intro d k hk
    exact docGet_docPop_other d KEY_FIELD k hk
  · intro st coll key hnd
    unfold dbGet
    exact docGet_docPop_self _ KEY_FIELD hnd

/-- C9 witness: a concrete insert payload carries both injected fields, and a
concrete read strips the key field while keeping the others. -/
theorem c9_write_inject_read_strip_witness :
    docGet (insertPayload [] ("k".data) 3) KEY_FIELD = some (.j (.str ("k".data))) ∧
    docGet (removeKeyField [(KEY_FIELD, DVal.j (.int 1)), ("a".data, DVal.j (.int 2))])
      KEY_FIELD = none ∧
    docGet (removeKeyField [(KEY_FIELD, DVal.j (.int 1)), ("a".data, DVal.j (.int 2))])
      ("a".data) = docGet [(KEY_FIELD, DVal.j (.int 1)), ("a".data, DVal.j (.int 2))]
      ("a".data) :=
  ⟨(c9_write_inject_read_strip.1 [] ("k".data) 3).1,
    c9_write_inject_read_strip.2.2.2.2.2.1 _ (by decide),
    c9_write_inject_read_strip.2.2.2.2.2.2.1 _ _ (by decide)⟩

/-- A completion that is exactly the canonical JSON encoding of a valid
artifact (and contains no code fence) parses back to that artifact. -/
theorem parseCandidate_to_json (a : Modules) (hv : a.valid)
    (hclean : clean_yaml_str (Modules.to_json a) = Modules.to_json a) :
    parseCandidate (Modules.to_json a) = .ok a := by
  unfold parseCandidate yamlLoad
  rw [hclean]
  unfold Modules.to_json
  rw [jloads_jdump]
  dsimp only
  rw [modules_fromJVal_toJVal a hv]

/-- C5: on a cache miss where every completion fails to parse into a valid
artifact, `from_sow` raises (in the embedding: returns an error), has made
exactly one backend call, and writes nothing to the cache — the store is
unchanged.  (The empty-completions case raises `IndexError` at `objects[0]`.) -/
theorem c5_all_candidates_fail (hashFn promptOf : Str → Str)
    (llm : Str → Nat → List Str) (now : Int) (sow : Str) (best_of : Nat)
    (st : GenState)
    (hmiss : modulesLoadFromCache st.store (hashFn sow) now = none)
    (hbad : ∀ r ∈ llm (promptOf sow) best_of, ∃ e, parseCandidate r = .error e) :
    ∃ e2, Modules.from_sow hashFn promptOf llm now sow best_of false st
      = (⟨st.store, st.backendCalls + 1⟩, .error e2) := by
  rw [from_sow_miss hmiss]
  cases hr : llm (promptOf sow) best_of with
  | nil =>
    exact ⟨.indexError, rfl⟩
  | cons r rs =>
    have hmem : r ∈ llm (promptOf sow) best_of := by
      rw [hr]
      exact List.mem_cons_self r rs
    obtain ⟨e, he⟩ := hbad r hmem
    obtain ⟨e2, he2⟩ := parseCandidates_error hmem he
    rw [hr] at he2
    rw [he2]
    exact ⟨e2, rfl⟩

/-- C5 witness: a single malformed completion; the run errors with the store
left empty and the backend call count at one. -/
theorem c5_all_candidates_fail_witness :
    ∃ e2, Modules.from_sow (fun _ => "h".data) (fun s => s) (fun _ _ => [['{']]) 0
      ("s".data) 1 false ⟨[], 0⟩ = (⟨[], 1⟩, .error e2) :=
  c5_all_candidates_fail (fun _ => "h".data) (fun s => s) (fun _ _ => [['{']]) 0
    ("s".data) 1 ⟨[], 0⟩ rfl
    (fun r hr => by
      rcases List.mem_cons.mp hr with rfl | h0
      · exact ⟨.parseError, rfl⟩
      · cases h0)

/-- The comprehension succeeds on a parseable head if it succeeds on the
tail. -/
theorem parseCandidates_cons_ok {r : Str} {a : Modules} {rs : List Str}
    {l : List Modules} (h1 : parseCandidate r = .ok a)
    (h2 : parseCandidates rs = .ok l) :
    parseCandidates (r :: rs) = .ok (a :: l) := by
  unfold parseCandidates
  rw [h1, h2]
  rfl

/-- C1: on a cache miss with all completions parseable, `from_sow` returns a
candidate whose `(subtasks, hours)` key is lexicographically maximal among the
parsed candidates; in particular, on any run whose candidate keys are a
permutation of (5, 40), (7, 20), (7, 50) the selected candidate is the one
with key (7, 50) — more subtasks beat more hours, and hours break ties. -/
theorem c1_best_candidate_ranking (hashFn promptOf : Str → Str)
    (llm : Str → Nat → List Str) (now : Int) (sow : Str) (best_of : Nat)
    (st : GenState) (objs : List Modules)
    (hmiss : modulesLoadFromCache st.store (hashFn sow) now = none)
    (hparse : parseCandidates (llm (promptOf sow) best_of) = .ok objs)
    (hne : objs ≠ []) :
    ∃ best st2, Modules.from_sow hashFn promptOf llm now sow best_of false st
        = (st2, .ok best) ∧
      best ∈ objs ∧ (∀ o ∈ objs, rankLe (rankKey o) (rankKey best)) ∧
      ((objs.map rankKey).Perm [((5 : ℕ), (40 : ℚ)), (7, 20), (7, 50)] →
        rankKey best = (7, 50)) := by
  rw [from_sow_miss hmiss, hparse]
  simp only []
  cases hsort : pySortDesc objs with
  | nil =>
    have hp := pySortDesc_perm objs
    rw [hsort] at hp
    exact absurd hp.symm.eq_nil hne
  | cons best rest =>
    obtain ⟨hmem, hmax⟩ := pySortDesc_head_max hsort
    refine ⟨best, _, rfl, hmem, hmax, ?_⟩
    intro hperm
    have hbk : rankKey best ∈ objs.map rankKey := List.mem_map_of_mem _ hmem
    have hbk2 := hperm.mem_iff.mp hbk
    have h750 : ((7 : ℕ), (50 : ℚ)) ∈ objs.map rankKey :=
      hperm.mem_iff.mpr (by simp)
    obtain ⟨o3, ho3, hko3⟩ := List.mem_map.mp h750
    have hle : rankLe ((7 : ℕ), (50 : ℚ)) (rankKey best) := hko3 ▸ hmax o3 ho3
    simp only [List.mem_cons, List.not_mem_nil, or_false] at hbk2
    rcases hbk2 with h | h | h
    · rw [h] at hle
      simp only [rankLe] at hle
      norm_num at hle
    · rw [h] at hle
      simp only [rankLe] at hle
      norm_num at hle
    · exact h

/-- A category leaf estimated at `m/10` hours. -/
def c1cat (m : Int) : TaskCategoryModel :=
  ⟨"AI".data, ⟨m, 0⟩, "s".data, "n".data⟩

/-- A one-module, one-task artifact with the given category leaves. -/
def c1of (cats : List TaskCategoryModel) : Modules :=
  ⟨"p".data, [⟨"m".data, "m".data, [⟨"t".data, "d".data, cats, "t".data⟩]⟩]⟩

/-- Candidate with 5 subtasks totalling 40 hours. -/
def c1a1 : Modules := c1of (List.replicate 5 (c1cat 80))

/-- Candidate with 7 subtasks totalling 20 hours. -/
def c1a2 : Modules := c1of (List.replicate 6 (c1cat 30) ++ [c1cat 20])

/-- Candidate with 7 subtasks totalling 50 hours. -/
def c1a3 : Modules := c1of (List.replicate 6 (c1cat 70) ++ [c1cat 80])

/-- The C1 backend: three canonical encodings with keys (5,40), (7,20),
(7,50). -/
def c1llm : Str → Nat → List Str :=
  fun _ _ => [Modules.to_json c1a1, Modules.to_json c1a2, Modules.to_json c1a3]

/-- The single-module artifacts built for the ranking run are valid when all
category hour fields are nonnegative. -/
theorem c1of_valid (cats : List TaskCategoryModel)
    (h : ∀ c ∈ cats, 0 ≤ c.hours.m) : (c1of cats).valid := by
  intro m hm
  rw [List.mem_singleton.mp hm]
  intro t ht
  rw [List.mem_singleton.mp ht]
  intro c hc
  exact h c hc

set_option maxRecDepth 10000 in
/-- C1 witness: the concrete three-candidate run selects the (7, 50)
candidate. -/
theorem c1_best_candidate_ranking_witness :
    (Modules.from_sow (fun _ => "h".data) (fun s => s) c1llm 0 ("sow".data) 3 false
      ⟨[], 0⟩).2 = .ok c1a3 := by
  have hv1 : c1a1.valid := c1of_valid _ (fun c hc => by
    rw [List.eq_of_mem_replicate hc]
    show (0 : Int) ≤ 80
    norm_num)
  have hv2 : c1a2.valid := c1of_valid _ (fun c hc => by
    rcases List.mem_append.mp hc with h | h
    · rw [List.eq_of_mem_replicate h]
      show (0 : Int) ≤ 30
      norm_num
    · rw [List.mem_singleton.mp h]
      show (0 : Int) ≤ 20
      norm_num)
  have hv3 : c1a3.valid := c1of_valid _ (fun c hc => by
    rcases List.mem_append.mp hc with h | h
    · rw [List.eq_of_mem_replicate h]
      show (0 : Int) ≤ 70
      norm_num
    · rw [List.mem_singleton.mp h]
      show (0 : Int) ≤ 80
      norm_num)
  have hp1 : parseCandidate (Modules.to_json c1a1) = .ok c1a1 :=
    parseCandidate_to_json c1a1 hv1 (clean_yaml_str_jdump _ (by decide))
  have hp2 : parseCandidate (Modules.to_json c1a2) = .ok c1a2 :=
    parseCandidate_to_json c1a2 hv2 (clean_yaml_str_jdump _ (by decide))
  have hp3 : parseCandidate (Modules.to_json c1a3) = .ok c1a3 :=
    parseCandidate_to_json c1a3 hv3 (clean_yaml_str_jdump _ (by decide))
  have hparse : parseCandidates (c1llm (("sow".data)) 3) = .ok [c1a1, c1a2, c1a3] :=
    parseCandidates_cons_ok hp1 (parseCandidates_cons_ok hp2
      (parseCandidates_cons_ok hp3 rfl))
  obtain ⟨best, st2, heq, hmem, hmax, hinst⟩ :=
    c1_best_candidate_ranking (fun _ => "h".data) (fun s => s) c1llm 0 ("sow".data) 3
      ⟨[], 0⟩ [c1a1, c1a2, c1a3] rfl hparse (by simp)
  have e1 : rankKey c1a1 = ((5 : ℕ), (40 : ℚ)) := by
    norm_num [rankKey, c1a1, c1of, c1cat, Modules.subtasks, ModuleModel.subtasks,
      TaskModel.subtasks, Modules.hours, ModuleModel.hours, TaskModel.hours, Dec.val,
      List.replicate]
  have e2 : rankKey c1a2 = ((7 : ℕ), (20 : ℚ)) := by
    norm_num [rankKey, c1a2, c1of, c1cat, Modules.subtasks, ModuleModel.subtasks,
      TaskModel.subtasks, Modules.hours, ModuleModel.hours, TaskModel.hours, Dec.val,
      List.replicate]
  have e3 : rankKey c1a3 = ((7 : ℕ), (50 : ℚ)) := by
    norm_num [rankKey, c1a3, c1of, c1cat, Modules.subtasks, ModuleModel.subtasks,
      TaskModel.subtasks, Modules.hours, ModuleModel.hours, TaskModel.hours, Dec.val,
      List.replicate]
  have hk : rankKey best = ((7 : ℕ), (50 : ℚ)) := by
    refine hinst ?_
    rw [List.map_cons, List.map_cons, List.map_cons, List.map_nil, e1, e2, e3]
  have hb : best = c1a3 := by
    rcases List.mem_cons.mp hmem with rfl | h2
    · rw [e1] at hk
      exact absurd hk (by decide)
    rcases List.mem_cons.mp h2 with rfl | h3
    · rw [e2] at hk
      exact absurd hk (by decide)
    rcases List.mem_cons.mp h3 with rfl | h4
    · rfl
    · cases h4
  rw [hb] at heq
  rw [heq]

/-- First parseable candidate of the C2 run. -/
def c2a1 : Modules := ⟨"p1".data, []⟩

/-- Second parseable candidate of the C2 run. -/
def c2a2 : Modules := ⟨"p2".data, []⟩

/-- The C2 backend: two canonical artifact encodings and one malformed
completion. -/
def c2llm : Str → Nat → List Str :=
  fun _ _ => [Modules.to_json c2a1, Modules.to_json c2a2, ['{']]

/-- C2 counterexample: two of the three completions parse into artifacts, yet
`from_sow` raises instead of ranking the parseable ones — the comprehension
`[cls.from_yaml(resp) for resp in responses]` has no per-candidate exception
handling, so one malformed completion aborts the whole run. -/
theorem c2_partial_failure_counterexample :
    parseCandidate (Modules.to_json c2a1) = .ok c2a1 ∧
    parseCandidate (Modules.to_json c2a2) = .ok c2a2 ∧
    parseCandidate ['{'] = .error .parseError ∧
    Modules.from_sow (fun _ => "h".data) (fun s => s) c2llm 0 ("sow".data) 3 false
      ⟨[], 0⟩ = (⟨[], 1⟩, .error .parseError) :=
  ⟨rfl, rfl, rfl, rfl⟩

/-- C2 (amended): on a cache miss, if any completion fails to parse into a
valid artifact, the whole `from_sow` call raises — regardless of how many
other completions are parseable; the backend is still called exactly once and
the cache is untouched. -/
theorem c2_single_bad_candidate_aborts (hashFn promptOf : Str → Str)
    (llm : Str → Nat → List Str) (now : Int) (sow : Str) (best_of : Nat)
    (st : GenState) (r : Str) (e : PyErr)
    (hmiss : modulesLoadFromCache st.store (hashFn sow) now = none)
    (hr : r ∈ llm (promptOf sow) best_of)
    (he : parseCandidate r = .error e) :
    ∃ e2, Modules.from_sow hashFn promptOf llm now sow best_of false st
      = (⟨st.store, st.backendCalls + 1⟩, .error e2) := by
  rw [from_sow_miss hmiss]
  obtain ⟨e2, he2⟩ := parseCandidates_error hr he
  rw [he2]
  exact ⟨e2, rfl⟩

/-- C2 witness: the amended statement applied to the concrete three-completion
run of the counterexample. -/
theorem c2_single_bad_candidate_aborts_witness :
    ∃ e2, Modules.from_sow (fun _ => "h".data) (fun s => s) c2llm 0 ("sow".data) 3
      false ⟨[], 0⟩ = (⟨[], 1⟩, .error e2) :=
  c2_single_bad_candidate_aborts (fun _ => "h".data) (fun s => s) c2llm 0 ("sow".data)
    3 ⟨[], 0⟩ ['{'] .parseError rfl
    (by
      unfold c2llm
      exact List.mem_cons_of_mem _ (List.mem_cons_of_mem _ (List.mem_cons_self _ _)))
    rfl

/-- The similarity scorer used in concrete fuzzy-matching runs. -/
def simZero : Str → Str → Nat := fun _ _ => 0

/-- C10 counterexample: for a model class with no schema fields,
`from_dict(fuzzy=True)` on an empty dict does NOT raise — it produces the
empty keyword dict (a default-populated object), so the claim's "every model
class" fails on a field-less class. -/
theorem c10_no_fields_counterexample :
    from_dict_fuzzy simZero [] [] 0 = .ok [] :=
  rfl

/-- C10 (amended): for every model class with at least one schema field,
`from_dict(fuzzy=True)` on an empty dict raises `KeyError`: the best-match
lookup returns the `(None, 0)` sentinel, score 0 passes the default cutoff
0.0, and the empty dict is indexed at `None`. -/
theorem c10_empty_dict_keyerror (sim : Str → Str → Nat) (fields : List Str)
    (h : fields ≠ []) : from_dict_fuzzy sim fields [] 0 = .error .keyError := by
  obtain ⟨f, rest, rfl⟩ := List.exists_cons_of_ne_nil h
  unfold from_dict_fuzzy
  dsimp only
  rw [if_pos ⟨le_refl 0, by norm_num⟩]
  simp [find_best_match, extractOne, buildArgs]

/-- C10 witness: a one-field class raises `KeyError` on the empty dict. -/
theorem c10_empty_dict_keyerror_witness :
    from_dict_fuzzy simZero ["a".data] [] 0 = .error .keyError :=
  c10_empty_dict_keyerror simZero ["a".data] (by simp)

/-- `BaseModel.__eq__` restricted to artifacts (the `isinstance` guard always
holds between two artifacts): comparison of the canonical YAML encodings. -/
def modulesEq (a b : Modules) : Prop :=
  Modules.to_yaml a = Modules.to_yaml b

/-- C8: artifact equality holds iff the canonical encodings are byte-identical
strings; structurally equal artifacts are equal; and since `__hash__` hashes
the canonical encoding, equal artifacts have equal hashes for every string
hash function. -/
theorem c8_structural_eq_hash (a b : Modules) :
    (modulesEq a b ↔ Modules.to_yaml a = Modules.to_yaml b) ∧
    (a = b → modulesEq a b) ∧
    (∀ h : Str → Int, modulesEq a b → h (Modules.to_yaml a) = h (Modules.to_yaml b)) :=
  ⟨Iff.rfl,
    fun h => by unfold modulesEq; rw [h],
    fun h heq => by
      unfold modulesEq at heq
      rw [heq]⟩

/-- C8 witness at a concrete artifact and hash function. -/
theorem c8_structural_eq_hash_witness :
    modulesEq ⟨"p".data, []⟩ ⟨"p".data, []⟩ ∧
    (fun s : Str => (s.length : Int)) (Modules.to_yaml ⟨"p".data, []⟩)
      = (fun s : Str => (s.length : Int)) (Modules.to_yaml ⟨"p".data, []⟩) :=
  ⟨(c8_structural_eq_hash ⟨"p".data, []⟩ ⟨"p".data, []⟩).2.1 rfl,
    (c8_structural_eq_hash ⟨"p".data, []⟩ ⟨"p".data, []⟩).2.2
      (fun s : Str => (s.length : Int))
      ((c8_structural_eq_hash ⟨"p".data, []⟩ ⟨"p".data, []⟩).2.1 rfl)⟩

/-- C3: determinism via the cache — a successful `from_sow` run persists its
result under the SOW's content hash, and a second call with the same SOW
within the 90-day TTL returns the identical artifact from the cache without
touching the store, regardless of the second call's `best_of`. -/
theorem c3_cache_determinism (hashFn promptOf : Str → Str)
    (llm : Str → Nat → List Str) (t1 t2 : Int) (sow : Str)
    (best_of best_of2 : Nat) (st st1 : GenState) (a : Modules)
    (hmiss : modulesLoadFromCache st.store (hashFn sow) t1 = none)
    (hfirst : Modules.from_sow hashFn promptOf llm t1 sow best_of false st = (st1, .ok a))
    (hfresh : t2 ≤ t1 + 3600 * 24 * 90) :
    Modules.from_sow hashFn promptOf llm t2 sow best_of2 false st1 = (st1, .ok a) := by
  rw [from_sow_miss hmiss] at hfirst
  cases hp : parseCandidates (llm (promptOf sow) best_of) with
  | error e =>
    rw [hp] at hfirst
    simp at hfirst
  | ok objs =>
    rw [hp] at hfirst
    simp only [] at hfirst
    cases hsort : pySortDesc objs with
    | nil =>
      rw [hsort] at hfirst
      simp at hfirst
    | cons best rest =>
      rw [hsort] at hfirst
      simp only [] at hfirst
      have hst1 : st1 = ⟨modulesSaveToCache st.store best (hashFn sow) t1,
          st.backendCalls + 1⟩ :=
        (congrArg Prod.fst hfirst).symm
      have h2 : best = a := by
        have h3 := congrArg Prod.snd hfirst
        simp at h3
        exact h3
      have hmem : best ∈ objs := (pySortDesc_head_max hsort).1
      have hvalid : best.valid := parseCandidates_ok_valid hp best hmem
      have hload : modulesLoadFromCache st1.store (hashFn sow) t2 = some best := by
        rw [hst1]
        exact modulesLoad_after_save st.store best (hashFn sow) t1 t2 hvalid hfresh
      unfold Modules.from_sow
      dsimp only
      rw [hload, h2]
      rfl

/-- The cached artifact of the C3 run. -/
def c3a : Modules := ⟨"pc3".data, []⟩

/-- C3 witness: after the concrete first run persists its artifact, a second
call (with a different `best_of`) returns the same artifact and state. -/
theorem c3_cache_determinism_witness :
    Modules.from_sow (fun _ => "h".data) (fun s => s) (fun _ _ => [Modules.to_json c3a])
        7 ("sow".data) 5 false ⟨modulesSaveToCache [] c3a ("h".data) 0, 1⟩
      = (⟨modulesSaveToCache [] c3a ("h".data) 0, 1⟩, .ok c3a) :=
  c3_cache_determinism (fun _ => "h".data) (fun s => s)
    (fun _ _ => [Modules.to_json c3a]) 0 7 ("sow".data) 1 5 ⟨[], 0⟩
    ⟨modulesSaveToCache [] c3a ("h".data) 0, 1⟩ c3a rfl rfl (by norm_num)

theorem dictLookup_of_mem_keys (data : List (Str × JVal)) (k : Str)
    (h : k ∈ data.map Prod.fst) : ∃ v, dictLookup data k = some v := by
  induction data with
  | nil => cases h
  | cons p rest ih =>
    obtain ⟨k2, v⟩ := p
    by_cases he : k2 = k
    · exact ⟨v, by unfold dictLookup; rw [if_pos he]⟩
    · have h2 : k ∈ rest.map Prod.fst := by
        rcases List.mem_cons.mp h with h3 | h3
        · exact absurd h3.symm he
        · exact h3
      obtain ⟨v2, hv2⟩ := ih h2
      exact ⟨v2, by unfold dictLookup; rw [if_neg he]; exact hv2⟩

/-- `fuzzywuzzy.extractOne` returns an option of maximal similarity (the
earliest one on ties). -/
theorem extractOne_mem_max (sim : Str → Str → Nat) (q : Str) :
    ∀ options : List Str, options ≠ [] →
      ∃ b, extractOne sim q options = some (b, sim q b) ∧ b ∈ options ∧
        ∀ o ∈ options, sim q o ≤ sim q b := by
  intro options
  induction options with
  | nil => exact fun h => absurd rfl h
  | cons o os ih =>
    intro _
    rcases os with _ | ⟨o2, os2⟩
    · refine ⟨o, rfl, List.mem_cons_self _ _, ?_⟩
      intro x hx
      rcases List.mem_cons.mp hx with rfl | hx
      · exact le_refl _
      · cases hx
    · obtain ⟨b, hb, hbmem, hbmax⟩ := ih (by simp)
      by_cases hgt : sim q o < sim q b
      · refine ⟨b, ?_, List.mem_cons_of_mem _ hbmem, ?_⟩
        · unfold extractOne
          rw [hb]
          simp only []
          rw [if_pos hgt]
        · intro x hx
          rcases List.mem_cons.mp hx with rfl | hx
          · exact le_of_lt hgt
          · exact hbmax x hx
      · refine ⟨o, ?_, List.mem_cons_self _ _, ?_⟩
        · unfold extractOne
          rw [hb]
          simp only []
          rw [if_neg hgt]
        · intro x hx
          rcases List.mem_cons.mp hx with rfl | hx
          · exact le_refl _
          · exact le_trans (hbmax x hx) (not_lt.mp hgt)

/-- `find_best_match` on a nonempty option list. -/
theorem find_best_match_spec (sim : Str → Str → Nat) (q : Str) (options : List Str)
    (h : options ≠ []) :
    ∃ b, find_best_match sim q options = (some b, sim q b) ∧ b ∈ options ∧
      ∀ o ∈ options, sim q o ≤ sim q b := by
  obtain ⟨b, hb, hm, hmax⟩ := extractOne_mem_max sim q options h
  refine ⟨b, ?_, hm, hmax⟩
  unfold find_best_match
  rw [hb]

/-- The dict comprehension of the fuzzy branch: when every accepted column
resolves, it succeeds, keeps exactly the fields whose score reached the
cutoff, and produces nothing else. -/
theorem buildArgs_spec (data : List (Str × JVal)) (cutoff : ℚ) :
    ∀ fc : List (Str × (Option Str × Nat)),
    (∀ p ∈ fc, cutoff ≤ ((p.2.2 : ℚ)) →
      ∃ k v, p.2.1 = some k ∧ dictLookup data k = some v) →
    ∃ res, buildArgs data cutoff fc = .ok res ∧
      (∀ p ∈ fc, cutoff ≤ ((p.2.2 : ℚ)) →
        ∀ k, p.2.1 = some k → ∀ v, dictLookup data k = some v → (p.1, v) ∈ res) ∧
      (∀ q ∈ res, ∃ p ∈ fc, q.1 = p.1 ∧ cutoff ≤ ((p.2.2 : ℚ))) := by
  intro fc
  induction fc with
  | nil => exact fun _ => ⟨[], rfl, by simp, by simp⟩
  | cons p rest ih =>
    intro hok
    obtain ⟨f, col, score⟩ := p
    have hok2 : ∀ p ∈ rest, cutoff ≤ ((p.2.2 : ℚ)) →
        ∃ k v, p.2.1 = some k ∧ dictLookup data k = some v :=
      fun p hp => hok p (List.mem_cons_of_mem _ hp)
    obtain ⟨res, hres, hin, hfrom⟩ := ih hok2
    by_cases hcut : cutoff ≤ ((score : ℚ))
    · obtain ⟨k, v, hcol, hlook⟩ := hok ⟨f, col, score⟩ (List.mem_cons_self _ _) hcut
      dsimp only at hcol
      subst hcol
      refine ⟨(f, v) :: res, ?_, ?_, ?_⟩
      · unfold buildArgs
        rw [if_pos hcut]
        simp only []
        rw [hlook]
        simp only []
        rw [hres]
        rfl
      · intro p hp hc k2 hk2 v2 hv2
        rcases List.mem_cons.mp hp with rfl | hp2
        · dsimp only at hk2
          injection hk2 with hk2
          subst hk2
          rw [hlook] at hv2
          injection hv2 with hv2
          subst hv2
          exact List.mem_cons_self _ _
        · exact List.mem_cons_of_mem _ (hin p hp2 hc k2 hk2 v2 hv2)
      · intro q hq
        rcases List.mem_cons.mp hq with rfl | hq2
        · exact ⟨⟨f, some k, score⟩, List.mem_cons_self _ _, rfl, hcut⟩
        · obtain ⟨p2, hp2, hq1, hc2⟩ := hfrom q hq2
          exact ⟨p2, List.mem_cons_of_mem _ hp2, hq1, hc2⟩
    · refine ⟨res, ?_, ?_, ?_⟩
      · unfold buildArgs
        rw [if_neg hcut]
        exact hres
      · intro p hp hc k2 hk2 v2 hv2
        rcases List.mem_cons.mp hp with rfl | hp2
        · exact absurd hc hcut
        · exact hin p hp2 hc k2 hk2 v2 hv2
      · intro q hq
        obtain ⟨p2, hp2, hq1, hc2⟩ := hfrom q hq
        exact ⟨p2, List.mem_cons_of_mem _ hp2, hq1, hc2⟩

/-- C6: with a cutoff in [0, 1] and a nonempty incoming dict, fuzzy
`from_dict` succeeds, and for every schema field the engine selects an
incoming key of maximal similarity: a field whose best score reaches the
cutoff is populated with the matched key's value, a field strictly below the
cutoff contributes nothing, and every produced entry belongs to some schema
field whose score reached the cutoff. -/
theorem c6_fuzzy_matching (sim : Str → Str → Nat) (fields : List Str)
    (data : List (Str × JVal)) (cutoff : ℚ)
    (hdata : data ≠ []) (hcut0 : 0 ≤ cutoff) (hcut1 : cutoff ≤ 1) :
    ∃ res, from_dict_fuzzy sim fields data cutoff = .ok res ∧
      (∀ f ∈ fields, ∃ b,
        find_best_match sim f (data.map Prod.fst) = (some b, sim f b) ∧
        b ∈ data.map Prod.fst ∧ (∀ o ∈ data.map Prod.fst, sim f o ≤ sim f b) ∧
        (cutoff ≤ ((sim f b : ℚ)) → ∃ v, dictLookup data b = some v ∧ (f, v) ∈ res) ∧
        (((sim f b : ℚ)) < cutoff → ∀ v, (f, v) ∉ res)) ∧
      (∀ q ∈ res, ∃ f ∈ fields, q.1 = f) := by
  have hkeys : data.map Prod.fst ≠ [] := by
    cases data with
    | nil => exact absurd rfl hdata
    | cons p t => simp
  unfold from_dict_fuzzy
  dsimp only
  rw [if_pos ⟨hcut0, hcut1⟩]
  have hfcok : ∀ p ∈ fields.map (fun f => (f, find_best_match sim f (data.map Prod.fst))),
      cutoff ≤ ((p.2.2 : ℚ)) → ∃ k v, p.2.1 = some k ∧ dictLookup data k = some v := by
    intro p hp _
    obtain ⟨f, hf, rfl⟩ := List.mem_map.mp hp
    obtain ⟨b, hb, hmem, hmax⟩ := find_best_match_spec sim f (data.map Prod.fst) hkeys
    obtain ⟨v, hv⟩ := dictLookup_of_mem_keys data b hmem
    exact ⟨b, v, by dsimp only; rw [hb], hv⟩
  obtain ⟨res, hres, hin, hfrom⟩ := buildArgs_spec data cutoff _ hfcok
  refine ⟨res, hres, ?_, ?_⟩
  · intro f hf
    obtain ⟨b, hb, hmem, hmax⟩ := find_best_match_spec sim f (data.map Prod.fst) hkeys
    have hpfc : (f, find_best_match sim f (data.map Prod.fst))
        ∈ fields.map (fun f => (f, find_best_match sim f (data.map Prod.fst))) :=
      List.mem_map_of_mem _ hf
    refine ⟨b, hb, hmem, hmax, ?_, ?_⟩
    · intro hc
      obtain ⟨v, hv⟩ := dictLookup_of_mem_keys data b hmem
      have harg1 : cutoff ≤ (((f, find_best_match sim f (data.map Prod.fst)).2.2 : ℚ)) := by
        dsimp only
        rw [hb]
        exact hc
      have harg2 : (f, find_best_match sim f (data.map Prod.fst)).2.1 = some b := by
        dsimp only
        rw [hb]
      exact ⟨v, hv, hin _ hpfc harg1 b harg2 v hv⟩
    · intro hlt v hvin
      obtain ⟨p2, hp2, hq1, hc2⟩ := hfrom (f, v) hvin
      obtain ⟨f2, hf2, rfl⟩ := List.mem_map.mp hp2
      dsimp only at hq1
      subst hq1
      dsimp only at hc2
      rw [hb] at hc2
      exact absurd hc2 (not_le.mpr hlt)
  · intro q hq
    obtain ⟨p2, hp2, hq1, _⟩ := hfrom q hq
    obtain ⟨f2, hf2, rfl⟩ := List.mem_map.mp hp2
    exact ⟨f2, hf2, hq1⟩

/-- An exact-match scorer. -/
def simEq : Str → Str → Nat :=
  fun a b => if a = b then 100 else 0

/-- C6 witness: one schema field matched exactly against a one-entry dict at
cutoff 3/5. -/
theorem c6_fuzzy_matching_witness :
    ∃ res, from_dict_fuzzy simEq ["task".data] [("task".data, .int 1)] (3 / 5)
        = .ok res ∧
      (∀ f ∈ ["task".data], ∃ b,
        find_best_match simEq f ([("task".data, JVal.int 1)].map Prod.fst)
          = (some b, simEq f b) ∧
        b ∈ [("task".data, JVal.int 1)].map Prod.fst ∧
        (∀ o ∈ [("task".data, JVal.int 1)].map Prod.fst, simEq f o ≤ simEq f b) ∧
        ((3 / 5 : ℚ) ≤ ((simEq f b : ℚ)) →
          ∃ v, dictLookup [("task".data, JVal.int 1)] b = some v ∧ (f, v) ∈ res) ∧
        (((simEq f b : ℚ)) < 3 / 5 → ∀ v, (f, v) ∉ res)) ∧
      (∀ q ∈ res, ∃ f ∈ ["task".data], q.1 = f) :=
  c6_fuzzy_matching simEq ["task".data] [("task".data, .int 1)] (3 / 5)
    (by simp) (by norm_num) (by norm_num)

/-- The artifact whose project name embeds a comment-like run. -/
def c7bad : Modules := ⟨"a // b".data, []⟩

/-- C7 counterexample: the canonical JSON encoding of an artifact whose
project name contains a space-slash-slash-space run is corrupted by the
decode-side comment stripping, so `from_json` fails to invert `to_json` —
the round trip is not the identity for every artifact. -/
theorem c7_roundtrip_counterexample :
    Modules.from_json (Modules.to_json c7bad) = none ∧
    clean_json_str (Modules.to_json c7bad) ≠ Modules.to_json c7bad := by
  exact ⟨rfl, by decide⟩

/-- C7 (amended): both encodings round-trip — `from_json` inverts `to_json`
and `from_yaml` inverts `to_yaml` — for every valid artifact whose encoded
text is left unchanged by the decode-side cleaning (in particular whenever no
string field contains a code fence or a comment-like run). -/
theorem c7_roundtrip_lossless (a : Modules) (hv : a.valid)
    (hjson : clean_json_str (Modules.to_json a) = Modules.to_json a)
    (hyaml : clean_yaml_str (Modules.to_yaml a) = Modules.to_yaml a) :
    Modules.from_json (Modules.to_json a) = some a ∧
    Modules.from_yaml (Modules.to_yaml a) = some a := by
  constructor
  · unfold Modules.from_json
    rw [hjson]
    unfold Modules.to_json
    rw [jloads_jdump, Option.some_bind, modules_fromJVal_toJVal a hv]
  · exact modules_from_yaml_to_yaml a hv hyaml

/-- C7 witness: a concrete clean artifact round-trips through both encodings. -/
theorem c7_roundtrip_lossless_witness :
    Modules.from_json (Modules.to_json ⟨"p7".data, []⟩) = some ⟨"p7".data, []⟩ ∧
    Modules.from_yaml (Modules.to_yaml ⟨"p7".data, []⟩) = some ⟨"p7".data, []⟩ :=
  c7_roundtrip_lossless ⟨"p7".data, []⟩
    (fun m hm => absurd hm (List.not_mem_nil m)) rfl rfl

end AutoRFP
